import Mathlib

/-!
Verification of the UDT definition synchronization engine of the
ignition-translation-cleaner repository.

The engine is embedded shallowly from the TypeScript sources:

* the core sync module (types `JsonValue`, `UdtOccurrence`, `ParsedUdtFile`,
  functions `normalizePathSegments`, `normalizeJsonForDisplay`,
  `canonicalizeJson`, `collectUdtOccurrences`, `parseUdtFile`,
  `buildMergedUdtFile`, `syncUdtDefinitions`);
* the sync component (functions `findArrayMatchKey`, `getArrayItemByKey`,
  `analyzeVariantDifferences`, `inspectDifference`, `mergeJsonValuesByUnion`,
  `buildUnionMergedDefinition`, `mergedFileForDownload`, `handleSyncUdts`).

Modelling conventions, used throughout and noted again at the definitions:

* JavaScript strings are Lean `String`s; `localeCompare`-based sorting is
  modelled by the total codepoint order `strLe` below (every claim settled
  here depends only on the comparator being a total order, never on the
  specific collation);
* JavaScript numbers are modelled as `Int` (the engine never performs
  arithmetic on JSON numbers, it only serializes and compares them);
* `JSON.parse(JSON.stringify(x))` deep cloning is the identity on the pure
  values of the model;
* JavaScript `Array.prototype.sort` (a stable sort) is modelled by
  `List.insertionSort` (also stable) with the relation "comparator ≤ 0";
* a JavaScript object is an ordered list of key/value entries; property
  access is first-match lookup (JS objects cannot hold duplicate keys, so
  on the image of real parsed documents this is exact);
* functions whose recursion is not structural in the source (the structural
  sub-differ and the union merge) take an explicit fuel argument; their
  wrappers pass a fuel that exceeds the recursion depth reachable from the
  argument, so the base case of the fuel is dead code.
-/

/-! ### String ordering (model of localeCompare-based sorting) -/

/-- Lexicographic comparison of character lists by codepoint. -/
def lexLe : List Char → List Char → Bool
  | [], _ => true
  | _ :: _, [] => false
  | a :: as, b :: bs =>
    if a.toNat < b.toNat then true
    else if b.toNat < a.toNat then false
    else lexLe as bs

/-- Total order on strings modelling the comparator
`(a, b) => a.localeCompare(b)` of the source. -/
def strLe (a b : String) : Bool := lexLe a.data b.data

/-- The proposition form of `strLe`, used as the sorting relation. -/
def SLe (a b : String) : Prop := strLe a b = true

instance : DecidableRel SLe := fun a b => instDecidableEqBool (strLe a b) true

theorem lexLe_total (as bs : List Char) : lexLe as bs = true ∨ lexLe bs as = true := by
  induction as generalizing bs with
  | nil => left; rfl
  | cons a as ih =>
    cases bs with
    | nil => right; rfl
    | cons b bs =>
      rcases Nat.lt_trichotomy a.toNat b.toNat with h | h | h
      · left; simp [lexLe, h]
      · have hba : ¬ b.toNat < a.toNat := by omega
        have hab : ¬ a.toNat < b.toNat := by omega
        rcases ih bs with h2 | h2
        · left; simp [lexLe, hab, hba, h2]
        · right; simp [lexLe, hab, hba, h2]
      · right; simp [lexLe, h]

theorem lexLe_trans {as bs cs : List Char} (h1 : lexLe as bs = true)
    (h2 : lexLe bs cs = true) : lexLe as cs = true := by
  induction as generalizing bs cs with
  | nil => rfl
  | cons a as ih =>
    cases bs with
    | nil => simp [lexLe] at h1
    | cons b bs =>
      cases cs with
      | nil => simp [lexLe] at h2
      | cons c cs =>
        by_cases hab : a.toNat < b.toNat
        · by_cases hbc : b.toNat < c.toNat
          · have : a.toNat < c.toNat := by omega
            simp [lexLe, this]
          · by_cases hcb : c.toNat < b.toNat
            · simp [lexLe, hbc, hcb] at h2
            · have hbceq : b.toNat = c.toNat := by omega
              have : a.toNat < c.toNat := by omega
              simp [lexLe, this]
        · by_cases hba : b.toNat < a.toNat
          · simp [lexLe, hab, hba] at h1
          · have habeq : a.toNat = b.toNat := by omega
            simp [lexLe, hab, hba] at h1
            by_cases hbc : b.toNat < c.toNat
            · have : a.toNat < c.toNat := by omega
              simp [lexLe, this]
            · by_cases hcb : c.toNat < b.toNat
              · simp [lexLe, hbc, hcb] at h2
              · have hac : ¬ a.toNat < c.toNat := by omega
                have hca : ¬ c.toNat < a.toNat := by omega
                simp [lexLe, hbc, hcb] at h2
                simp [lexLe, hac, hca]
                exact ih h1 h2

theorem lexLe_antisymm {as bs : List Char} (h1 : lexLe as bs = true)
    (h2 : lexLe bs as = true) : as = bs := by
  induction as generalizing bs with
  | nil =>
    cases bs with
    | nil => rfl
    | cons b bs => simp [lexLe] at h2
  | cons a as ih =>
    cases bs with
    | nil => simp [lexLe] at h1
    | cons b bs =>
      by_cases hab : a.toNat < b.toNat
      · have : ¬ a.toNat < a.toNat := by omega
        simp [lexLe, hab] at h2
        omega
      · by_cases hba : b.toNat < a.toNat
        · simp [lexLe, hab, hba] at h1
        · have hn : a.toNat = b.toNat :=
            Nat.le_antisymm (Nat.not_lt.mp hba) (Nat.not_lt.mp hab)
          have heq : a = b := Char.ext (UInt32.ext hn)
          simp [lexLe, hab, hba] at h1 h2
          exact heq ▸ congrArg (a :: ·) (ih h1 h2)

instance : IsTotal String SLe :=
  ⟨fun a b => lexLe_total a.data b.data⟩

instance : IsTrans String SLe :=
  ⟨fun _ _ _ h1 h2 => lexLe_trans h1 h2⟩

instance : IsAntisymm String SLe :=
  ⟨fun a b h1 h2 => by
    have h := lexLe_antisymm h1 h2
    cases a; cases b; exact congrArg String.mk h⟩

instance : IsRefl String SLe :=
  ⟨fun a => by
    rcases lexLe_total a.data a.data with h | h <;> exact h⟩

/-- Model of `array.sort((a, b) => a.localeCompare(b))`. -/
def sortStrings (l : List String) : List String := List.insertionSort SLe l

/-- Model of `s.trim()` on character data (JavaScript trim strips leading and
trailing whitespace). -/
def myTrim (s : String) : String :=
  ⟨(s.data.dropWhile Char.isWhitespace).reverse.dropWhile Char.isWhitespace |>.reverse⟩

/-- Model of `s.toLowerCase()` on character data. -/
def myToLower (s : String) : String := ⟨s.data.map Char.toLower⟩

/-- First-occurrence deduplication, the model of inserting into a JS `Set` or
`Map` and iterating in insertion order. -/
def dedupFirstAux [DecidableEq α] (seen : List α) : List α → List α
  | [] => []
  | x :: xs => if x ∈ seen then dedupFirstAux seen xs else x :: dedupFirstAux (x :: seen) xs

/-- Deduplicate a list keeping the first occurrence of each element. -/
def dedupFirst [DecidableEq α] (l : List α) : List α := dedupFirstAux [] l

theorem mem_dedupFirstAux [DecidableEq α] {x : α} (seen l) :
    x ∈ dedupFirstAux seen l ↔ x ∈ l ∧ x ∉ seen := by
  induction l generalizing seen with
  | nil => simp [dedupFirstAux]
  | cons y ys ih =>
    rw [dedupFirstAux]
    by_cases hy : y ∈ seen
    · rw [if_pos hy, ih]
      simp only [List.mem_cons]
      constructor
      · rintro ⟨h1, h2⟩; exact ⟨Or.inr h1, h2⟩
      · rintro ⟨h1 | h1, h2⟩
        · exact absurd (h1 ▸ hy) h2
        · exact ⟨h1, h2⟩
    · rw [if_neg hy]
      simp only [List.mem_cons, ih, List.mem_cons]
      constructor
      · rintro (rfl | ⟨h1, h2⟩)
        · exact ⟨Or.inl rfl, hy⟩
        · exact ⟨Or.inr h1, fun h => h2 (Or.inr h)⟩
      · rintro ⟨h1 | h1, h2⟩
        · exact Or.inl h1
        · rcases eq_or_ne x y with rfl | hxy
          · exact Or.inl rfl
          · refine Or.inr ⟨h1, fun h => ?_⟩
            rcases h with h | h
            · exact hxy h
            · exact h2 h

theorem mem_dedupFirst [DecidableEq α] {x : α} (l : List α) :
    x ∈ dedupFirst l ↔ x ∈ l := by
  simp [dedupFirst, mem_dedupFirstAux]

theorem nodup_dedupFirstAux [DecidableEq α] (seen l) :
    (dedupFirstAux (α := α) seen l).Nodup := by
  induction l generalizing seen with
  | nil => exact List.nodup_nil
  | cons y ys ih =>
    rw [dedupFirstAux]
    by_cases hy : y ∈ seen
    · rw [if_pos hy]; exact ih seen
    · rw [if_neg hy]
      refine List.Nodup.cons ?_ (ih (y :: seen))
      intro hmem
      exact ((mem_dedupFirstAux (y :: seen) ys).mp hmem).2 (List.mem_cons_self _ _)

theorem nodup_dedupFirst [DecidableEq α] (l : List α) : (dedupFirst l).Nodup :=
  nodup_dedupFirstAux [] l

/-! ### JSON data model

Embeds the source types: `JsonPrimitive = string | number | boolean | null`,
`JsonValue = JsonPrimitive | JsonObject | JsonValue[]`, where a `JsonObject`
is an ordered mapping of string keys to values. -/

/-- The JSON value type of the engine.  Objects are ordered entry lists;
JavaScript numbers are modelled as integers (the engine only serializes and
compares them). -/
inductive JsonValue where
  | null : JsonValue
  | bool (b : Bool) : JsonValue
  | num (n : Int) : JsonValue
  | str (s : String) : JsonValue
  | arr (items : List JsonValue) : JsonValue
  | obj (entries : List (String × JsonValue)) : JsonValue

mutual

/-- Structural equality test on JSON values. -/
def beqJson : JsonValue → JsonValue → Bool
  | .null, .null => true
  | .bool a, .bool b => a == b
  | .num a, .num b => a == b
  | .str a, .str b => a == b
  | .arr a, .arr b => beqJsonList a b
  | .obj a, .obj b => beqJsonEntries a b
  | _, _ => false

/-- Structural equality test on JSON value lists. -/
def beqJsonList : List JsonValue → List JsonValue → Bool
  | [], [] => true
  | a :: as, b :: bs => beqJson a b && beqJsonList as bs
  | _, _ => false

/-- Structural equality test on JSON object entry lists. -/
def beqJsonEntries : List (String × JsonValue) → List (String × JsonValue) → Bool
  | [], [] => true
  | (k, v) :: as, (k2, v2) :: bs => k == k2 && beqJson v v2 && beqJsonEntries as bs
  | _, _ => false

end

mutual

/-- Structural weight of a JSON value, used as a recursion measure. -/
def jweight : JsonValue → Nat
  | .null => 1
  | .bool _ => 1
  | .num _ => 1
  | .str _ => 1
  | .arr l => 1 + jweightList l
  | .obj es => 1 + jweightEntries es

/-- Structural weight of a JSON value list. -/
def jweightList : List JsonValue → Nat
  | [] => 0
  | v :: l => jweight v + jweightList l

/-- Structural weight of a JSON object entry list. -/
def jweightEntries : List (String × JsonValue) → Nat
  | [] => 0
  | (_, v) :: es => jweight v + jweightEntries es

end

theorem jweight_pos (v : JsonValue) : 0 < jweight v := by
  cases v <;> simp [jweight]

theorem jweight_le_of_mem_list {v : JsonValue} {l : List JsonValue} (h : v ∈ l) :
    jweight v ≤ jweightList l := by
  induction l with
  | nil => cases h
  | cons w l ih =>
    rcases List.mem_cons.mp h with rfl | h
    · simp [jweightList]
    · calc jweight v ≤ jweightList l := ih h
        _ ≤ jweight w + jweightList l := Nat.le_add_left _ _
        _ = jweightList (w :: l) := rfl

theorem jweight_le_of_mem_entries {k : String} {v : JsonValue}
    {es : List (String × JsonValue)} (h : (k, v) ∈ es) :
    jweight v ≤ jweightEntries es := by
  induction es with
  | nil => cases h
  | cons e es ih =>
    obtain ⟨k2, v2⟩ := e
    rcases List.mem_cons.mp h with heq | hmem
    · cases heq
      simp [jweightEntries]
    · have := ih hmem
      simp only [jweightEntries]
      omega

theorem beqJson_iff_eq_all (n : Nat) :
    (∀ a b : JsonValue, jweight a ≤ n → (beqJson a b = true ↔ a = b)) ∧
    (∀ as bs : List JsonValue, jweightList as ≤ n → (beqJsonList as bs = true ↔ as = bs)) ∧
    (∀ as bs : List (String × JsonValue), jweightEntries as ≤ n →
      (beqJsonEntries as bs = true ↔ as = bs)) := by
  induction n with
  | zero =>
    refine ⟨fun a b ha => absurd ha (by have := jweight_pos a; omega), ?_, ?_⟩
    · intro as bs ha
      cases as with
      | nil => cases bs with
        | nil => simp [beqJsonList]
        | cons b bs => simp [beqJsonList]
      | cons a as => exact absurd ha (by have := jweight_pos a; simp [jweightList]; omega)
    · intro as bs ha
      cases as with
      | nil => cases bs with
        | nil => simp [beqJsonEntries]
        | cons b bs =>
          obtain ⟨k, v⟩ := b
          simp [beqJsonEntries]
      | cons a as =>
        obtain ⟨k, v⟩ := a
        exact absurd ha (by have := jweight_pos v; simp [jweightEntries]; omega)
  | succ n ih =>
    obtain ⟨ihv, ihl, ihe⟩ := ih
    have hval : ∀ a b : JsonValue, jweight a ≤ n + 1 → (beqJson a b = true ↔ a = b) := by
      intro a b ha
      cases a <;> cases b
      case arr.arr l m =>
        have hl : jweightList l ≤ n := by simp [jweight] at ha; omega
        rw [show beqJson (JsonValue.arr l) (JsonValue.arr m) = beqJsonList l m from rfl,
          ihl l m hl]
        exact ⟨congrArg JsonValue.arr, fun h => by injection h⟩
      case obj.obj l m =>
        have hl : jweightEntries l ≤ n := by simp [jweight] at ha; omega
        rw [show beqJson (JsonValue.obj l) (JsonValue.obj m) = beqJsonEntries l m from rfl,
          ihe l m hl]
        exact ⟨congrArg JsonValue.obj, fun h => by injection h⟩
      all_goals simp [beqJson]
    have hlist : ∀ as bs : List JsonValue, jweightList as ≤ n + 1 →
        (beqJsonList as bs = true ↔ as = bs) := by
      intro as bs ha
      induction as generalizing bs with
      | nil => cases bs with
        | nil => simp [beqJsonList]
        | cons b bs => simp [beqJsonList]
      | cons a as ihas =>
        cases bs with
        | nil => simp [beqJsonList]
        | cons b bs =>
          have h1 : jweight a ≤ n + 1 := by simp [jweightList] at ha; omega
          have h2 : jweightList as ≤ n + 1 := by
            have := jweight_pos a; simp [jweightList] at ha; omega
          rw [show beqJsonList (a :: as) (b :: bs) = (beqJson a b && beqJsonList as bs)
            from rfl]
          simp only [Bool.and_eq_true]
          rw [hval a b h1, ihas bs h2]
          constructor
          · rintro ⟨rfl, rfl⟩; rfl
          · intro h; injection h with h1 h2; exact ⟨h1, h2⟩
    have hentries : ∀ as bs : List (String × JsonValue), jweightEntries as ≤ n + 1 →
        (beqJsonEntries as bs = true ↔ as = bs) := by
      intro as bs ha
      induction as generalizing bs with
      | nil => cases bs with
        | nil => simp [beqJsonEntries]
        | cons b bs => obtain ⟨k, v⟩ := b; simp [beqJsonEntries]
      | cons a as ihas =>
        obtain ⟨k, v⟩ := a
        cases bs with
        | nil => simp [beqJsonEntries]
        | cons b bs =>
          obtain ⟨k2, v2⟩ := b
          have h1 : jweight v ≤ n + 1 := by simp [jweightEntries] at ha; omega
          have h2 : jweightEntries as ≤ n + 1 := by
            have := jweight_pos v; simp [jweightEntries] at ha; omega
          rw [show beqJsonEntries ((k, v) :: as) ((k2, v2) :: bs) =
            ((k == k2 && beqJson v v2) && beqJsonEntries as bs) from rfl]
          simp only [Bool.and_eq_true, beq_iff_eq]
          rw [hval v v2 h1, ihas bs h2]
          constructor
          · rintro ⟨⟨rfl, rfl⟩, rfl⟩; rfl
          · intro h
            injection h with h1 h2
            injection h1 with h3 h4
            exact ⟨⟨h3, h4⟩, h2⟩
    exact ⟨hval, hlist, hentries⟩

theorem beqJson_iff_eq (a b : JsonValue) : beqJson a b = true ↔ a = b :=
  (beqJson_iff_eq_all (jweight a)).1 a b (Nat.le_refl _)

instance : DecidableEq JsonValue :=
  fun a b => decidable_of_iff (beqJson a b = true) (beqJson_iff_eq a b)

/-- First-match lookup in an entry list: the model of JavaScript property
access `value[key]` (and of `key in value` via `Option.isSome`). -/
def lookupPairs {α : Type} (es : List (String × α)) (key : String) : Option α :=
  match es with
  | [] => none
  | (k, v) :: rest => if k = key then some v else lookupPairs rest key

/-- String-valued field access: `typeof value[key] === "string" ? value[key] : null`
combined with the object check. -/
def getStrField (v : JsonValue) (key : String) : Option String :=
  match v with
  | .obj es =>
    match lookupPairs es key with
    | some (.str s) => some s
    | _ => none
  | _ => none

theorem lookupPairs_mem {α : Type} {es : List (String × α)} {key : String} {v : α}
    (h : lookupPairs es key = some v) : (key, v) ∈ es := by
  induction es with
  | nil => simp [lookupPairs] at h
  | cons e rest ih =>
    obtain ⟨k, w⟩ := e
    by_cases hk : k = key
    · subst hk
      rw [lookupPairs, if_pos rfl] at h
      cases h
      exact List.mem_cons_self _ _
    · rw [lookupPairs, if_neg hk] at h
      exact List.mem_cons_of_mem _ (ih h)

theorem lookupPairs_isSome_iff {α : Type} {es : List (String × α)} {key : String} :
    (lookupPairs es key).isSome = true ↔ key ∈ es.map Prod.fst := by
  induction es with
  | nil => simp [lookupPairs]
  | cons e rest ih =>
    obtain ⟨k, w⟩ := e
    by_cases hk : k = key
    · subst hk; simp [lookupPairs]
    · rw [lookupPairs, if_neg hk]
      simp only [List.map_cons, List.mem_cons, ih]
      constructor
      · exact fun h => Or.inr h
      · rintro (h | h)
        · exact absurd h.symm hk
        · exact h

theorem lookupPairs_map_value {α β : Type} (f : α → β) (es : List (String × α))
    (key : String) :
    lookupPairs (es.map (fun e => (e.1, f e.2))) key = (lookupPairs es key).map f := by
  induction es with
  | nil => simp [lookupPairs]
  | cons e rest ih =>
    obtain ⟨k, w⟩ := e
    by_cases hk : k = key
    · subst hk; simp [lookupPairs]
    · simp [lookupPairs, if_neg hk, ih]

theorem lookupPairs_graph {α : Type} (g : String → α) (keys : List String)
    (key : String) :
    lookupPairs (keys.map (fun k => (k, g k))) key =
      if key ∈ keys then some (g key) else none := by
  induction keys with
  | nil => simp [lookupPairs]
  | cons k rest ih =>
    rw [List.map_cons, lookupPairs]
    by_cases hk : k = key
    · subst hk; simp
    · rw [if_neg hk, ih]
      by_cases hmem : key ∈ rest
      · rw [if_pos hmem, if_pos (List.mem_cons_of_mem _ hmem)]
      · have hnot : key ∉ k :: rest := by
          intro h
          rcases List.mem_cons.mp h with h | h
          · exact hk h.symm
          · exact hmem h
        rw [if_neg hmem, if_neg hnot]

/-! ### Serialization and the Canonicalizer

Embeds `JSON.stringify` (insertion order, used by the sub-differ and the
union merge), `canonicalizeJson` and `normalizeJsonForDisplay` from the sync
module. -/

/-- Lower-case hexadecimal digit, for control-character escapes. -/
def hexDigitChar (n : Nat) : Char :=
  if n < 10 then Char.ofNat (48 + n) else Char.ofNat (87 + n)

/-- Escape of a single character inside a JSON string literal, as produced by
`JSON.stringify`. -/
def escChar (c : Char) : String :=
  if c = '"' then "\\\""
  else if c = '\\' then "\\\\"
  else if c = '\n' then "\\n"
  else if c = '\r' then "\\r"
  else if c = '\t' then "\\t"
  else if c.toNat = 8 then "\\b"
  else if c.toNat = 12 then "\\f"
  else if c.toNat < 32 then
    "\\u00" ++ ⟨[hexDigitChar (c.toNat / 16), hexDigitChar (c.toNat % 16)]⟩
  else String.singleton c

/-- Model of `JSON.stringify` applied to a string. -/
def jsonQuote (s : String) : String :=
  "\"" ++ String.join (s.data.map escChar) ++ "\""

mutual

/-- Model of `JSON.stringify(value)` (no spacing): object entries in
insertion order, array elements in order. -/
def jsonStringify : JsonValue → String
  | .null => "null"
  | .bool b => if b then "true" else "false"
  | .num n => toString n
  | .str s => jsonQuote s
  | .arr l => "[" ++ String.intercalate "," (stringifyList l) ++ "]"
  | .obj es => "\x7b" ++ String.intercalate "," (stringifyEntries es) ++ "\x7d"

/-- Serializations of the elements of an array, in order. -/
def stringifyList : List JsonValue → List String
  | [] => []
  | v :: l => jsonStringify v :: stringifyList l

/-- Serializations of the entries of an object, in insertion order. -/
def stringifyEntries : List (String × JsonValue) → List String
  | [] => []
  | (k, v) :: es => (jsonQuote k ++ ":" ++ jsonStringify v) :: stringifyEntries es

end

mutual

/-- The canonicalizer `canonicalizeJson` of the sync module: object keys are
sorted before serialization, array element serializations are sorted before
joining, primitives use `JSON.stringify`. -/
def canonicalizeJson : JsonValue → String
  | .null => "null"
  | .bool b => if b then "true" else "false"
  | .num n => toString n
  | .str s => jsonQuote s
  | .arr l => "[" ++ String.intercalate "," (sortStrings (canonList l)) ++ "]"
  | .obj es =>
    "\x7b" ++ String.intercalate ","
      ((sortStrings (es.map Prod.fst)).map (fun k =>
        jsonQuote k ++ ":" ++ ((lookupPairs (canonEntries es) k).getD ""))) ++ "\x7d"

/-- Canonicalizations of the elements of an array. -/
def canonList : List JsonValue → List String
  | [] => []
  | v :: l => canonicalizeJson v :: canonList l

/-- Entry list with every value replaced by its canonicalization; looking a
key up here is the model of `canonicalizeJson(value[key])` in the source's
sorted-key serialization loop. -/
def canonEntries : List (String × JsonValue) → List (String × String)
  | [] => []
  | (k, v) :: es => (k, canonicalizeJson v) :: canonEntries es

end

/-- Comparator of array elements in `normalizeJsonForDisplay`:
`canonicalizeJson(a).localeCompare(canonicalizeJson(b))`. -/
def canonSLe (a b : JsonValue) : Prop :=
  SLe (canonicalizeJson a) (canonicalizeJson b)

instance : DecidableRel canonSLe :=
  fun a b => instDecidableEqBool (strLe (canonicalizeJson a) (canonicalizeJson b)) true

mutual

/-- The display normalizer `normalizeJsonForDisplay` of the sync module:
recursively sorts object keys and array elements (the latter by canonical
serialization), returning a `JsonValue`. -/
def normalizeJsonForDisplay : JsonValue → JsonValue
  | .null => .null
  | .bool b => .bool b
  | .num n => .num n
  | .str s => .str s
  | .arr l => .arr (List.insertionSort canonSLe (normList l))
  | .obj es =>
    .obj ((sortStrings (es.map Prod.fst)).map (fun k =>
      (k, (lookupPairs (normEntries es) k).getD .null)))

/-- Normalizations of the elements of an array, in original order (sorted by
the caller). -/
def normList : List JsonValue → List JsonValue
  | [] => []
  | v :: l => normalizeJsonForDisplay v :: normList l

/-- Entry list with every value normalized; looking a key up here is the
model of `normalizeJsonForDisplay(value[key])` in the source's sorted-key
rebuild loop. -/
def normEntries : List (String × JsonValue) → List (String × JsonValue)
  | [] => []
  | (k, v) :: es => (k, normalizeJsonForDisplay v) :: normEntries es

end

theorem canonList_eq_map (l : List JsonValue) : canonList l = l.map canonicalizeJson := by
  induction l with
  | nil => rfl
  | cons v l ih => rw [canonList, ih, List.map_cons]

theorem canonEntries_eq_map (es : List (String × JsonValue)) :
    canonEntries es = es.map (fun e => (e.1, canonicalizeJson e.2)) := by
  induction es with
  | nil => rfl
  | cons e es ih => obtain ⟨k, v⟩ := e; rw [canonEntries, ih, List.map_cons]

theorem normList_eq_map (l : List JsonValue) :
    normList l = l.map normalizeJsonForDisplay := by
  induction l with
  | nil => rfl
  | cons v l ih => rw [normList, ih, List.map_cons]

theorem normEntries_eq_map (es : List (String × JsonValue)) :
    normEntries es = es.map (fun e => (e.1, normalizeJsonForDisplay e.2)) := by
  induction es with
  | nil => rfl
  | cons e es ih => obtain ⟨k, v⟩ := e; rw [normEntries, ih, List.map_cons]

/-- Sorting strings is determined by the multiset of elements. -/
theorem sortStrings_congr {l₁ l₂ : List String} (h : l₁.Perm l₂) :
    sortStrings l₁ = sortStrings l₂ :=
  List.eq_of_perm_of_sorted
    (((List.perm_insertionSort SLe l₁).trans h).trans
      (List.perm_insertionSort SLe l₂).symm)
    (List.sorted_insertionSort SLe l₁) (List.sorted_insertionSort SLe l₂)

theorem sortStrings_sorted (l : List String) : (sortStrings l).Sorted SLe :=
  List.sorted_insertionSort SLe l

theorem sortStrings_idem (l : List String) : sortStrings (sortStrings l) = sortStrings l :=
  List.Sorted.insertionSort_eq (sortStrings_sorted l)

/-- Claim C3 auxiliary: canonicalization is invariant under display
normalization, by strong induction on structural weight. -/
theorem canon_norm_all (n : Nat) :
    ∀ v : JsonValue, jweight v ≤ n →
      canonicalizeJson (normalizeJsonForDisplay v) = canonicalizeJson v := by
  induction n with
  | zero => intro v hv; exact absurd hv (by have := jweight_pos v; omega)
  | succ n ih =>
    intro v hv
    cases v with
    | null => rfl
    | bool b => rfl
    | num m => rfl
    | str s => rfl
    | arr l =>
      have hIH : ∀ x ∈ l, canonicalizeJson (normalizeJsonForDisplay x) = canonicalizeJson x := by
        intro x hx
        have hwx : jweight x ≤ n := by
          have h1 := jweight_le_of_mem_list hx
          have h2 : jweight (JsonValue.arr l) = 1 + jweightList l := rfl
          omega
        exact ih x hwx
      rw [show normalizeJsonForDisplay (JsonValue.arr l)
          = JsonValue.arr (List.insertionSort canonSLe (normList l)) from rfl]
      rw [show ∀ m, canonicalizeJson (JsonValue.arr m)
          = "[" ++ String.intercalate "," (sortStrings (canonList m)) ++ "]"
        from fun _ => rfl, show canonicalizeJson (JsonValue.arr l)
          = "[" ++ String.intercalate "," (sortStrings (canonList l)) ++ "]" from rfl]
      have hperm : (canonList (List.insertionSort canonSLe (normList l))).Perm (canonList l) := by
        rw [canonList_eq_map, canonList_eq_map]
        have h1 : (List.insertionSort canonSLe (normList l)).Perm (normList l) :=
          List.perm_insertionSort canonSLe (normList l)
        have h2 := h1.map canonicalizeJson
        refine h2.trans ?_
        rw [normList_eq_map, List.map_map]
        have : l.map (canonicalizeJson ∘ normalizeJsonForDisplay) = l.map canonicalizeJson :=
          List.map_congr_left (fun x hx => hIH x hx)
        rw [this]
      rw [sortStrings_congr hperm]
    | obj es =>
      have hIH : ∀ k w, lookupPairs es k = some w →
          canonicalizeJson (normalizeJsonForDisplay w) = canonicalizeJson w := by
        intro k w hw
        have hwx : jweight w ≤ n := by
          have h1 := jweight_le_of_mem_entries (lookupPairs_mem hw)
          have h2 : jweight (JsonValue.obj es) = 1 + jweightEntries es := rfl
          omega
        exact ih w hwx
      rw [show normalizeJsonForDisplay (JsonValue.obj es)
          = JsonValue.obj ((sortStrings (es.map Prod.fst)).map (fun k =>
              (k, (lookupPairs (normEntries es) k).getD .null))) from rfl]
      rw [show ∀ ms, canonicalizeJson (JsonValue.obj ms)
          = "\x7b" ++ String.intercalate ","
              ((sortStrings (ms.map Prod.fst)).map (fun k =>
                jsonQuote k ++ ":" ++ ((lookupPairs (canonEntries ms) k).getD ""))) ++ "\x7d"
        from fun _ => rfl]
      set K := sortStrings (es.map Prod.fst) with hK
      have hfst : (K.map (fun k => (k, (lookupPairs (normEntries es) k).getD .null))).map Prod.fst = K := by
        rw [List.map_map]; exact List.map_id' K
      have hKK : sortStrings K = K := by rw [hK]; exact sortStrings_idem _
      rw [hfst, hKK]
      rw [show canonicalizeJson (JsonValue.obj es)
          = "\x7b" ++ String.intercalate ","
              ((sortStrings (es.map Prod.fst)).map (fun k =>
                jsonQuote k ++ ":" ++ ((lookupPairs (canonEntries es) k).getD ""))) ++ "\x7d"
        from rfl, ← hK]
      congr 1
      congr 1
      congr 1
      apply List.map_congr_left
      intro k hk
      have hkes : k ∈ es.map Prod.fst := (List.perm_insertionSort SLe _).mem_iff.mp hk
      obtain ⟨w, hw⟩ : ∃ w, lookupPairs es k = some w := by
        have := lookupPairs_isSome_iff.mpr hkes
        cases hlk : lookupPairs es k with
        | none => rw [hlk] at this; simp at this
        | some w => exact ⟨w, rfl⟩
      have hcanL : lookupPairs (canonEntries (K.map (fun k =>
            (k, (lookupPairs (normEntries es) k).getD .null)))) k
          = some (canonicalizeJson ((lookupPairs (normEntries es) k).getD .null)) := by
        rw [canonEntries_eq_map, List.map_map]
        have hgraph := lookupPairs_graph
          (fun k => canonicalizeJson ((lookupPairs (normEntries es) k).getD .null)) K k
        have : (fun e => (e.1, canonicalizeJson e.2)) ∘
              (fun k => (k, (lookupPairs (normEntries es) k).getD JsonValue.null))
            = fun k => (k, canonicalizeJson ((lookupPairs (normEntries es) k).getD .null)) := rfl
        rw [this, hgraph, if_pos hk]
      rw [hcanL]
      have hnorm : lookupPairs (normEntries es) k = some (normalizeJsonForDisplay w) := by
        rw [normEntries_eq_map]
        have := lookupPairs_map_value (fun v => normalizeJsonForDisplay v) es k
        have heq : (fun (e : String × JsonValue) => (e.1, normalizeJsonForDisplay e.2))
            = fun e => (e.1, (fun v => normalizeJsonForDisplay v) e.2) := rfl
        rw [heq, this, hw, Option.map_some']
      have hcanR : lookupPairs (canonEntries es) k = some (canonicalizeJson w) := by
        rw [canonEntries_eq_map]
        have := lookupPairs_map_value (fun v => canonicalizeJson v) es k
        have heq : (fun (e : String × JsonValue) => (e.1, canonicalizeJson e.2))
            = fun e => (e.1, (fun v => canonicalizeJson v) e.2) := rfl
        rw [heq, this, hw, Option.map_some']
      rw [hcanR, hnorm]
      simp only [Option.getD_some]
      rw [hIH k w hw]

/-- Claim C3: for every JsonValue v, canonicalize(normalizeForDisplay(v))
equals canonicalize(v): normalizing a value for display (recursive key
sorting and array-element sorting) never changes its canonical
serialization. -/
theorem claim_C3 (v : JsonValue) :
    canonicalizeJson (normalizeJsonForDisplay v) = canonicalizeJson v :=
  canon_norm_all (jweight v) v (Nat.le_refl _)

/-! ### Claim C4: order-insensitivity of the canonicalizer

`Reorder v w` holds when `w` is obtained from `v` by permuting the insertion
order of object entries or the order of array elements, anywhere in the
value, recursively.  Objects carry the invariant of real JavaScript objects:
their keys are distinct (`Nodup`), since a JS object cannot hold the same
key twice. -/

mutual

/-- Recursive reordering of a JSON value: at every node first reorder the
children recursively, then permute the entry/element list. -/
inductive Reorder : JsonValue → JsonValue → Prop where
  | null : Reorder .null .null
  | bool (b : Bool) : Reorder (.bool b) (.bool b)
  | num (n : Int) : Reorder (.num n) (.num n)
  | str (s : String) : Reorder (.str s) (.str s)
  | arr {l₁ m l₂ : List JsonValue} :
      ReorderList l₁ m → m.Perm l₂ → Reorder (.arr l₁) (.arr l₂)
  | obj {e₁ m e₂ : List (String × JsonValue)} :
      (e₁.map Prod.fst).Nodup →
      ReorderEntries e₁ m → m.Perm e₂ → Reorder (.obj e₁) (.obj e₂)

/-- Pointwise reordering of array elements. -/
inductive ReorderList : List JsonValue → List JsonValue → Prop where
  | nil : ReorderList [] []
  | cons {v w : JsonValue} {l m : List JsonValue} :
      Reorder v w → ReorderList l m → ReorderList (v :: l) (w :: m)

/-- Pointwise reordering of object entry values (keys unchanged). -/
inductive ReorderEntries :
    List (String × JsonValue) → List (String × JsonValue) → Prop where
  | nil : ReorderEntries [] []
  | cons {k : String} {v w : JsonValue} {l m : List (String × JsonValue)} :
      Reorder v w → ReorderEntries l m → ReorderEntries ((k, v) :: l) ((k, w) :: m)

end

theorem reorderEntries_fst {a b : List (String × JsonValue)} (h : ReorderEntries a b) :
    a.map Prod.fst = b.map Prod.fst := by
  induction a generalizing b with
  | nil => cases h; rfl
  | cons e es ih =>
    obtain ⟨k, v⟩ := e
    cases h with
    | cons hvw hrest => rw [List.map_cons, List.map_cons, ih hrest]

theorem reorderEntries_lookup {a b : List (String × JsonValue)}
    (h : ReorderEntries a b) (k : String) :
    (lookupPairs a k = none ∧ lookupPairs b k = none) ∨
      ∃ v w, lookupPairs a k = some v ∧ lookupPairs b k = some w ∧ Reorder v w := by
  induction a generalizing b with
  | nil => cases h; exact Or.inl ⟨rfl, rfl⟩
  | cons e es ih =>
    obtain ⟨ke, v⟩ := e
    cases h with
    | cons hvw hrest =>
      rename_i w' m'
      by_cases hk : ke = k
      · subst hk
        refine Or.inr ⟨v, w', ?_, ?_, hvw⟩
        · rw [lookupPairs, if_pos rfl]
        · rw [lookupPairs, if_pos rfl]
      · have ha : lookupPairs ((ke, v) :: es) k = lookupPairs es k := by
          rw [lookupPairs, if_neg hk]
        have hb : lookupPairs ((ke, w') :: m') k = lookupPairs m' k := by
          rw [lookupPairs, if_neg hk]
        rw [ha, hb]
        exact ih hrest

theorem lookupPairs_perm {α : Type} {a b : List (String × α)}
    (hp : a.Perm b) (hnd : (a.map Prod.fst).Nodup) (k : String) :
    lookupPairs a k = lookupPairs b k := by
  induction hp with
  | nil => rfl
  | cons x hp ih =>
    obtain ⟨kx, vx⟩ := x
    by_cases hk : kx = k
    · subst hk; rw [lookupPairs, lookupPairs, if_pos rfl, if_pos rfl]
    · rw [lookupPairs, lookupPairs, if_neg hk, if_neg hk]
      exact ih (by simpa using (List.nodup_cons.mp (by simpa using hnd)).2)
  | swap x y l =>
    obtain ⟨kx, vx⟩ := x
    obtain ⟨ky, vy⟩ := y
    have hne : ky ≠ kx := by
      simp only [List.map_cons] at hnd
      rcases List.nodup_cons.mp hnd with ⟨hnotin, -⟩
      exact fun h => hnotin (h ▸ List.mem_cons_self _ _)
    by_cases hky : ky = k
    · subst hky
      rw [lookupPairs, if_pos rfl, lookupPairs, if_neg (fun h => hne h.symm), lookupPairs,
        if_pos rfl]
    · by_cases hkx : kx = k
      · subst hkx
        rw [lookupPairs, if_neg hky, lookupPairs, if_pos rfl, lookupPairs, if_pos rfl]
      · rw [lookupPairs, if_neg hky, lookupPairs, if_neg hkx, lookupPairs, if_neg hkx,
          lookupPairs, if_neg hky]
  | trans hab hbc ih₁ ih₂ =>
    have hnd₂ : (_ : List (String × α)).map Prod.fst |>.Nodup :=
      ((hab.map Prod.fst).nodup_iff).mp hnd
    exact (ih₁ hnd).trans (ih₂ hnd₂)

/-- Claim C4 auxiliary: recursive reordering never changes the canonical
serialization, by strong induction on structural weight. -/
theorem reorder_canon_all (n : Nat) :
    ∀ v w : JsonValue, jweight v ≤ n → Reorder v w →
      canonicalizeJson v = canonicalizeJson w := by
  induction n with
  | zero => intro v w hv _; exact absurd hv (by have := jweight_pos v; omega)
  | succ n ih =>
    intro v w hv hr
    cases hr with
    | null => rfl
    | bool b => rfl
    | num m => rfl
    | str s => rfl
    | arr hlist hperm =>
      rename_i l₁ mm l₂
      have hmapeq : l₁.map canonicalizeJson = mm.map canonicalizeJson := by
        clear hperm
        induction l₁ generalizing mm with
        | nil => cases hlist; rfl
        | cons x xs ihx =>
          cases hlist with
          | cons hxw hrest =>
            rename_i wx ws
            have hx : jweight x ≤ n := by
              have h1 : jweight x ≤ jweightList (x :: xs) := jweight_le_of_mem_list
                (List.mem_cons_self _ _)
              have h2 : jweight (JsonValue.arr (x :: xs)) = 1 + jweightList (x :: xs) := rfl
              omega
            have hxs : jweight (JsonValue.arr xs) ≤ n + 1 := by
              have h2 : jweight (JsonValue.arr (x :: xs)) = 1 + jweightList (x :: xs) := rfl
              have h3 : jweight (JsonValue.arr xs) = 1 + jweightList xs := rfl
              have h4 : jweightList (x :: xs) = jweight x + jweightList xs := rfl
              have := jweight_pos x
              omega
            rw [List.map_cons, List.map_cons, ih x wx hx hxw, ihx hrest hxs]
      rw [show canonicalizeJson (JsonValue.arr l₁)
          = "[" ++ String.intercalate "," (sortStrings (canonList l₁)) ++ "]" from rfl,
        show canonicalizeJson (JsonValue.arr l₂)
          = "[" ++ String.intercalate "," (sortStrings (canonList l₂)) ++ "]" from rfl]
      have hperm2 : (canonList l₁).Perm (canonList l₂) := by
        rw [canonList_eq_map, canonList_eq_map, hmapeq]
        exact hperm.map canonicalizeJson
      rw [sortStrings_congr hperm2]
    | obj hnd hent hperm =>
      rename_i e₁ mm e₂
      have hfst1 : e₁.map Prod.fst = mm.map Prod.fst := reorderEntries_fst hent
      have hfst2 : (mm.map Prod.fst).Perm (e₂.map Prod.fst) := hperm.map Prod.fst
      have hndm : (mm.map Prod.fst).Nodup := hfst1 ▸ hnd
      have hkeys : sortStrings (e₁.map Prod.fst) = sortStrings (e₂.map Prod.fst) :=
        sortStrings_congr (hfst1 ▸ hfst2)
      rw [show canonicalizeJson (JsonValue.obj e₁)
          = "\x7b" ++ String.intercalate ","
              ((sortStrings (e₁.map Prod.fst)).map (fun k =>
                jsonQuote k ++ ":" ++ ((lookupPairs (canonEntries e₁) k).getD ""))) ++ "\x7d"
        from rfl,
        show canonicalizeJson (JsonValue.obj e₂)
          = "\x7b" ++ String.intercalate ","
              ((sortStrings (e₂.map Prod.fst)).map (fun k =>
                jsonQuote k ++ ":" ++ ((lookupPairs (canonEntries e₂) k).getD ""))) ++ "\x7d"
        from rfl, ← hkeys]
      congr 1
      congr 1
      congr 1
      apply List.map_congr_left
      intro k hk
      have hkes : k ∈ e₁.map Prod.fst := (List.perm_insertionSort SLe _).mem_iff.mp hk
      obtain ⟨vv, hvv⟩ : ∃ vv, lookupPairs e₁ k = some vv := by
        have := lookupPairs_isSome_iff.mpr hkes
        cases hlk : lookupPairs e₁ k with
        | none => rw [hlk] at this; simp at this
        | some vv => exact ⟨vv, rfl⟩
      rcases reorderEntries_lookup hent k with ⟨hnone, _⟩ | ⟨v', w', hv', hw', hr'⟩
      · rw [hvv] at hnone; cases hnone
      · rw [hvv] at hv'
        cases hv'
        have hw2 : lookupPairs e₂ k = some w' := by
          rw [← lookupPairs_perm hperm hndm k]
          exact hw'
        have hcan1 : lookupPairs (canonEntries e₁) k = some (canonicalizeJson vv) := by
          rw [canonEntries_eq_map]
          have := lookupPairs_map_value (fun v => canonicalizeJson v) e₁ k
          have heq : (fun (e : String × JsonValue) => (e.1, canonicalizeJson e.2))
              = fun e => (e.1, (fun v => canonicalizeJson v) e.2) := rfl
          rw [heq, this, hvv, Option.map_some']
        have hcan2 : lookupPairs (canonEntries e₂) k = some (canonicalizeJson w') := by
          rw [canonEntries_eq_map]
          have := lookupPairs_map_value (fun v => canonicalizeJson v) e₂ k
          have heq : (fun (e : String × JsonValue) => (e.1, canonicalizeJson e.2))
              = fun e => (e.1, (fun v => canonicalizeJson v) e.2) := rfl
          rw [heq, this, hw2, Option.map_some']
        rw [hcan1, hcan2]
        simp only [Option.getD_some]
        have hwv : jweight vv ≤ n := by
          have h1 := jweight_le_of_mem_entries (lookupPairs_mem hvv)
          have h2 : jweight (JsonValue.obj e₁) = 1 + jweightEntries e₁ := rfl
          omega
        rw [ih vv w' hwv hr']

/-- Claim C4: canonicalize is order-insensitive: for every JsonValue,
permuting the insertion order of any object's keys or the order of any
array's elements (anywhere in the value, recursively) never changes the
canonicalize output string. -/
theorem claim_C4 (v w : JsonValue) (h : Reorder v w) :
    canonicalizeJson v = canonicalizeJson w :=
  reorder_canon_all (jweight v) v w (Nat.le_refl _) h

/-- Concrete value for the C4 witness. -/
def vC4 : JsonValue := .obj [("b", .num 1), ("a", .arr [.num 1, .num 2])]

/-- The value `vC4` with its keys reordered and the inner array permuted. -/
def wC4 : JsonValue := .obj [("a", .arr [.num 2, .num 1]), ("b", .num 1)]

/-- Witness for claim C4 at a concrete reordered pair. -/
theorem claim_C4_witness :
    Reorder vC4 wC4 ∧ canonicalizeJson vC4 = canonicalizeJson wC4 := by
  have h : Reorder vC4 wC4 :=
    Reorder.obj (by decide)
      (ReorderEntries.cons (Reorder.num 1)
        (ReorderEntries.cons
          (Reorder.arr
            (ReorderList.cons (Reorder.num 1)
              (ReorderList.cons (Reorder.num 2) ReorderList.nil))
            (List.Perm.swap (JsonValue.num 2) (JsonValue.num 1) []))
          ReorderEntries.nil))
      (List.Perm.swap ("a", JsonValue.arr [JsonValue.num 2, JsonValue.num 1])
        ("b", JsonValue.num 1) [])
  exact ⟨h, claim_C4 _ _ h⟩

/-! ### Tree Walker / Occurrence Extractor

Embeds `SYNTHETIC_ROOT_SEGMENTS`, `isSyntheticRootSegment`,
`normalizePathSegments`, `normalizeRootName`, `collectUdtOccurrences` and
`parseUdtFile` from the sync module.  `parseUdtFile` first runs
`JSON.parse`; the `ParseError` path is outside this model, so the
embedding `extractUdtFile` starts from the already-parsed `JsonValue`. -/

/-- The fixed set of synthetic root markers. -/
def SYNTHETIC_ROOT_SEGMENTS : List String := ["_types_"]

/-- Case-insensitive membership in the synthetic root marker set. -/
def isSyntheticRootSegment (segment : String) : Bool :=
  decide (myToLower segment ∈ SYNTHETIC_ROOT_SEGMENTS)

/-- Drop whitespace-only segments, then strip leading synthetic root
markers. -/
def normalizePathSegments (segments : List String) : List String :=
  (segments.filter (fun seg => !decide (myTrim seg = ""))).dropWhile
    (fun seg => isSyntheticRootSegment seg)

/-- Normalize an optional root name: empty, whitespace-only or synthetic
names become `none`; otherwise the trimmed name is kept. -/
def normalizeRootName (v : Option String) : Option String :=
  match v with
  | none => none
  | some s =>
    if s = "" then none
    else
      let t := myTrim s
      if t = "" ∨ isSyntheticRootSegment t = true then none else some t

/-- One extracted definition occurrence (`UdtOccurrence` in the source).
The `definition` is the deep copy of the node, which in this pure model is
the node itself. -/
structure UdtOccurrence where
  name : String
  path : String
  pathSegments : List String
  parentPathSegments : List String
  sourceFile : String
  definition : JsonValue
  canonical : String
deriving DecidableEq

/-- One parsed input document (`ParsedUdtFile` in the source). -/
structure ParsedUdtFile where
  fileName : String
  rootName : Option String
  udts : List UdtOccurrence
deriving DecidableEq

/-- The walker's current path at an object node: the parent path extended by
the node's `name` when that is a non-empty string. -/
def currentPathOf (es : List (String × JsonValue)) (parentPath : List String) :
    List String :=
  match lookupPairs es "name" with
  | some (.str n) => if n = "" then parentPath else parentPath ++ [n]
  | _ => parentPath

/-- The occurrence contributed by an object node itself: produced when the
node's `tagType` is the literal string "UdtType", its `name` is a non-empty
string, and the normalized current path is non-empty. -/
def selfOccurrence (es : List (String × JsonValue)) (currentPath : List String)
    (sourceFile : String) : List UdtOccurrence :=
  match getStrField (.obj es) "name" with
  | some n =>
    if getStrField (.obj es) "tagType" = some "UdtType" ∧ n ≠ "" then
      if normalizePathSegments currentPath = [] then []
      else
        [{ name := n
           path := String.intercalate "/" (normalizePathSegments currentPath)
           pathSegments := normalizePathSegments currentPath
           parentPathSegments := (normalizePathSegments currentPath).dropLast
           sourceFile := sourceFile
           definition := .obj es
           canonical := canonicalizeJson (.obj es) }]
    else []
  | none => []

/-- The walker's early-return condition: a node whose `tagType` is the
literal string "UdtType" and whose `name` is a non-empty string, but whose
normalized current path is empty, produces nothing and returns before the
`tags` recursion, pruning its whole subtree. -/
def prunesSubtree (es : List (String × JsonValue)) (currentPath : List String) : Bool :=
  match getStrField (.obj es) "name" with
  | some n =>
    decide (getStrField (.obj es) "tagType" = some "UdtType") && decide (n ≠ "") &&
      decide (normalizePathSegments currentPath = [])
  | none => false

mutual

/-- The recursive walker `collectUdtOccurrences`: non-object nodes produce
nothing; a `UdtType` node with a non-empty name but an empty normalized
path returns early, skipping its `tags` subtree; otherwise an object node
contributes its own occurrence (when eligible) and recurses into the
children of its `tags` array. -/
def collectUdtOccurrences (node : JsonValue) (parentPath : List String)
    (sourceFile : String) : List UdtOccurrence :=
  match node with
  | .obj es =>
    if prunesSubtree es (currentPathOf es parentPath) then []
    else
      selfOccurrence es (currentPathOf es parentPath) sourceFile ++
        collectFromEntries es (currentPathOf es parentPath) sourceFile
  | _ => []

/-- Walk the entry list to the node's `tags` property (first match, as in
JavaScript property access) and recurse into it. -/
def collectFromEntries (es : List (String × JsonValue)) (currentPath : List String)
    (sourceFile : String) : List UdtOccurrence :=
  match es with
  | [] => []
  | (k, v) :: rest =>
    if k = "tags" then collectFromTagsValue v currentPath sourceFile
    else collectFromEntries rest currentPath sourceFile

/-- Recurse into a `tags` value only when it is an array. -/
def collectFromTagsValue (v : JsonValue) (currentPath : List String)
    (sourceFile : String) : List UdtOccurrence :=
  match v with
  | .arr children => collectList children currentPath sourceFile
  | _ => []

/-- Collect the occurrences of every child, in order. -/
def collectList (children : List JsonValue) (currentPath : List String)
    (sourceFile : String) : List UdtOccurrence :=
  match children with
  | [] => []
  | c :: cs =>
    collectUdtOccurrences c currentPath sourceFile ++ collectList cs currentPath sourceFile

end

/-- Collect the occurrences of every root of an array document. -/
def collectRoots (roots : List JsonValue) (fileName : String) : List UdtOccurrence :=
  match roots with
  | [] => []
  | c :: cs => collectUdtOccurrences c [] fileName ++ collectRoots cs fileName

/-- The post-parse part of `parseUdtFile`: root name extraction and
occurrence collection over a single object or an array of roots. -/
def extractUdtFile (fileName : String) (parsed : JsonValue) : ParsedUdtFile :=
  { fileName := fileName
    rootName := normalizeRootName (match parsed with
      | .obj es =>
        match lookupPairs es "name" with
        | some (.str s) => some s
        | _ => none
      | _ => none)
    udts := match parsed with
      | .arr l => collectRoots l fileName
      | _ => collectUdtOccurrences parsed [] fileName }

/-- Properties every extracted occurrence satisfies. -/
def OccProps (occ : UdtOccurrence) (src : String) : Prop :=
  occ.sourceFile = src ∧
  occ.pathSegments ≠ [] ∧
  occ.path = String.intercalate "/" occ.pathSegments ∧
  occ.parentPathSegments = occ.pathSegments.dropLast ∧
  getStrField occ.definition "tagType" = some "UdtType" ∧
  getStrField occ.definition "name" = some occ.name ∧
  occ.name ≠ "" ∧
  occ.canonical = canonicalizeJson occ.definition

theorem selfOccurrence_sound {es : List (String × JsonValue)} {cp : List String}
    {src : String} {occ : UdtOccurrence} (h : occ ∈ selfOccurrence es cp src) :
    OccProps occ src ∧ occ.pathSegments = normalizePathSegments cp := by
  unfold selfOccurrence at h
  split at h
  · rename_i n hnm
    split at h
    · rename_i hcond
      split at h
      · cases h
      · rename_i hps
        rcases List.mem_singleton.mp h with rfl
        exact ⟨⟨rfl, hps, rfl, rfl, hcond.1, hnm, hcond.2, rfl⟩, rfl⟩
    · cases h
  · cases h

theorem collectFromEntries_eq (es : List (String × JsonValue)) (cp : List String)
    (src : String) :
    collectFromEntries es cp src =
      match lookupPairs es "tags" with
      | some (.arr l) => collectList l cp src
      | _ => [] := by
  induction es with
  | nil => rfl
  | cons e rest ih =>
    obtain ⟨k, v⟩ := e
    by_cases hk : k = "tags"
    · subst hk
      rw [collectFromEntries, if_pos rfl, lookupPairs, if_pos rfl]
      cases v <;> rfl
    · rw [collectFromEntries, if_neg hk, lookupPairs, if_neg hk, ih]

theorem mem_collectList {occ : UdtOccurrence} {l : List JsonValue}
    {cp : List String} {src : String} :
    occ ∈ collectList l cp src ↔ ∃ c ∈ l, occ ∈ collectUdtOccurrences c cp src := by
  induction l with
  | nil => simp [collectList]
  | cons c cs ih =>
    rw [collectList, List.mem_append, ih]
    constructor
    · rintro (h | ⟨c', hc', h⟩)
      · exact ⟨c, List.mem_cons_self _ _, h⟩
      · exact ⟨c', List.mem_cons_of_mem _ hc', h⟩
    · rintro ⟨c', hc', h⟩
      rcases List.mem_cons.mp hc' with rfl | hc'
      · exact Or.inl h
      · exact Or.inr ⟨c', hc', h⟩

theorem collect_sound (n : Nat) :
    ∀ node p src, jweight node ≤ n →
      ∀ occ ∈ collectUdtOccurrences node p src, OccProps occ src := by
  induction n with
  | zero =>
    intro node p src hw
    exact absurd hw (by have := jweight_pos node; omega)
  | succ n ih =>
    intro node p src hw occ hocc
    cases node
    case obj es =>
      rw [show collectUdtOccurrences (JsonValue.obj es) p src
          = (if prunesSubtree es (currentPathOf es p) then []
             else selfOccurrence es (currentPathOf es p) src ++
               collectFromEntries es (currentPathOf es p) src) from rfl] at hocc
      by_cases hpr : prunesSubtree es (currentPathOf es p) = true
      · rw [if_pos hpr] at hocc
        cases hocc
      rw [if_neg hpr, List.mem_append] at hocc
      rcases hocc with h | h
      · exact (selfOccurrence_sound h).1
      · rw [collectFromEntries_eq] at h
        split at h
        · rename_i l htags
          obtain ⟨c, hc, hocc2⟩ := mem_collectList.mp h
          have hwc : jweight c ≤ n := by
            have h1 : jweight c ≤ jweightList l := jweight_le_of_mem_list hc
            have h2 : jweight (JsonValue.arr l) ≤ jweightEntries es :=
              jweight_le_of_mem_entries (lookupPairs_mem htags)
            have h3 : jweight (JsonValue.arr l) = 1 + jweightList l := rfl
            have h4 : jweight (JsonValue.obj es) = 1 + jweightEntries es := rfl
            omega
          exact ih c (currentPathOf es p) src hwc occ hocc2
        · cases h
    all_goals cases hocc

theorem extract_sound (fileName : String) (parsed : JsonValue) :
    ∀ occ ∈ (extractUdtFile fileName parsed).udts, OccProps occ fileName := by
  intro occ hocc
  cases parsed
  case arr l =>
    rw [show (extractUdtFile fileName (JsonValue.arr l)).udts
        = collectRoots l fileName from rfl] at hocc
    induction l with
    | nil => cases hocc
    | cons c cs ihc =>
      rw [collectRoots, List.mem_append] at hocc
      rcases hocc with h | h
      · exact collect_sound (jweight c) c [] fileName (Nat.le_refl _) occ h
      · exact ihc h
  case obj es =>
    exact collect_sound _ _ [] fileName (Nat.le_refl _) occ hocc
  all_goals cases hocc

/-! ### Claims C8 and C10: walker behavior -/

theorem normalizePathSegments_eq_nil_iff (l : List String) :
    normalizePathSegments l = [] ↔
      ∀ seg ∈ l, myTrim seg = "" ∨ isSyntheticRootSegment seg = true := by
  unfold normalizePathSegments
  rw [List.dropWhile_eq_nil_iff]
  constructor
  · intro h seg hseg
    by_cases hb : myTrim seg = ""
    · exact Or.inl hb
    · right
      apply h seg
      rw [List.mem_filter]
      exact ⟨hseg, by simp [hb]⟩
  · intro h seg hseg
    rw [List.mem_filter] at hseg
    rcases h seg hseg.1 with hb | hs
    · exfalso
      have h2 := hseg.2
      simp [hb] at h2
    · exact hs

/-- A minimal definition node: a `UdtType` leaf with the given name (used by
the C8 pruning example). -/
def leafUdtC8 (nm : String) : JsonValue :=
  JsonValue.obj [("name", JsonValue.str nm), ("tagType", JsonValue.str "UdtType")]

/-- Counterexample to claim C8 as stated, in two parts.  First, sufficiency
fails at the node itself: a root carrying `tagType = "UdtType"` and the
non-empty name `" "` is recorded as no occurrence, because its normalized
path is empty.  Second, sufficiency also fails below such a node: under a
root named `"_types_"` (a `UdtType` node with a non-empty name and an empty
normalized path), the walker returns before the `tags` recursion, so the
child definition `A` — which carries the discriminator and a non-empty name,
and whose own normalized path `["A"]` is non-empty — is never recorded
either. -/
theorem claim_C8_counterexample :
    getStrField (JsonValue.obj [("name", JsonValue.str " "), ("tagType", JsonValue.str "UdtType")])
        "tagType" = some "UdtType" ∧
    getStrField (JsonValue.obj [("name", JsonValue.str " "), ("tagType", JsonValue.str "UdtType")])
        "name" = some " " ∧
    (" " : String) ≠ "" ∧
    (extractUdtFile "f"
        (JsonValue.obj [("name", JsonValue.str " "), ("tagType", JsonValue.str "UdtType")])).udts
      = [] ∧
    getStrField (leafUdtC8 "A") "tagType" = some "UdtType" ∧
    getStrField (leafUdtC8 "A") "name" = some "A" ∧
    normalizePathSegments ["_types_", "A"] = ["A"] ∧
    (extractUdtFile "f"
        (JsonValue.obj [("name", JsonValue.str "_types_"),
          ("tagType", JsonValue.str "UdtType"),
          ("tags", JsonValue.arr [leafUdtC8 "A"])])).udts
      = [] :=
  ⟨rfl, rfl, by decide, rfl, rfl, rfl, by decide, rfl⟩

/-- Claim C8 (amended): non-object nodes produce zero occurrences and never
fail; a `UdtType` node with a non-empty name but an empty normalized current
path returns early, producing nothing and pruning its entire `tags` subtree
(so even descendant definitions satisfying every recording condition are
skipped); otherwise a node without a `tags` array contributes exactly its
own (possibly empty) occurrence; the early return fires exactly under those
three conditions; and a visited node contributes an occurrence for itself
iff its `tagType` is the literal "UdtType", its `name` is a non-empty
string, and its normalized accumulated path is non-empty. -/
theorem claim_C8 :
    (∀ (node : JsonValue) (p : List String) (src : String),
      (∀ es, node ≠ JsonValue.obj es) → collectUdtOccurrences node p src = []) ∧
    (∀ (es : List (String × JsonValue)) (p : List String) (src : String),
      prunesSubtree es (currentPathOf es p) = true →
      collectUdtOccurrences (JsonValue.obj es) p src = []) ∧
    (∀ (es : List (String × JsonValue)) (p : List String) (src : String),
      prunesSubtree es (currentPathOf es p) = false →
      (∀ l, lookupPairs es "tags" ≠ some (JsonValue.arr l)) →
      collectUdtOccurrences (JsonValue.obj es) p src
        = selfOccurrence es (currentPathOf es p) src) ∧
    (∀ (es : List (String × JsonValue)) (cp : List String),
      prunesSubtree es cp = true ↔
        (getStrField (JsonValue.obj es) "tagType" = some "UdtType" ∧
          ∃ nm, getStrField (JsonValue.obj es) "name" = some nm ∧ nm ≠ "" ∧
            normalizePathSegments cp = [])) ∧
    (∀ (es : List (String × JsonValue)) (cp : List String) (src : String),
      selfOccurrence es cp src ≠ [] ↔
        (getStrField (JsonValue.obj es) "tagType" = some "UdtType" ∧
          ∃ nm, getStrField (JsonValue.obj es) "name" = some nm ∧ nm ≠ "" ∧
            normalizePathSegments cp ≠ [])) := by
  refine ⟨?_, ?_, ?_, ?_, ?_⟩
  · intro node p src hne
    cases node
    case obj es => exact absurd rfl (hne es)
    all_goals rfl
  · intro es p src hpr
    rw [show collectUdtOccurrences (JsonValue.obj es) p src
        = (if prunesSubtree es (currentPathOf es p) then []
           else selfOccurrence es (currentPathOf es p) src ++
             collectFromEntries es (currentPathOf es p) src) from rfl,
      if_pos hpr]
  · intro es p src hpr hne
    rw [show collectUdtOccurrences (JsonValue.obj es) p src
        = (if prunesSubtree es (currentPathOf es p) then []
           else selfOccurrence es (currentPathOf es p) src ++
             collectFromEntries es (currentPathOf es p) src) from rfl,
      if_neg (by rw [hpr]; exact Bool.false_ne_true),
      collectFromEntries_eq]
    split
    · rename_i l htags
      exact absurd htags (hne l)
    · exact List.append_nil _
  · intro es cp
    unfold prunesSubtree
    split
    · rename_i n hnm
      rw [Bool.and_eq_true, Bool.and_eq_true, decide_eq_true_eq, decide_eq_true_eq,
        decide_eq_true_eq]
      constructor
      · rintro ⟨⟨htt, hn⟩, hps⟩
        exact ⟨htt, n, hnm, hn, hps⟩
      · rintro ⟨htt, nm, hnm2, hn, hps⟩
        have heq : some n = some nm := hnm.symm.trans hnm2
        injection heq with heq
        subst heq
        exact ⟨⟨htt, hn⟩, hps⟩
    · rename_i hnone
      constructor
      · intro h
        cases h
      · rintro ⟨-, nm, hnm2, -, -⟩
        rw [hnone] at hnm2
        cases hnm2
  · intro es cp src
    constructor
    · intro hne
      unfold selfOccurrence at hne
      split at hne
      · rename_i n hnm
        split at hne
        · rename_i hcond
          split at hne
          · exact absurd rfl hne
          · rename_i hps
            exact ⟨hcond.1, n, hnm, hcond.2, hps⟩
        · exact absurd rfl hne
      · exact absurd rfl hne
    · rintro ⟨htt, n, hnm, hn, hps⟩
      unfold selfOccurrence
      split
      · rename_i n' hnm'
        have heq : some n' = some n := hnm'.symm.trans hnm
        injection heq with heq
        subst heq
        rw [if_pos ⟨htt, hn⟩, if_neg hps]
        simp
      · rename_i hnone
        rw [hnone] at hnm
        cases hnm

/-- Witness for claim C8 at concrete inputs: a non-object root yields no
occurrences; an empty-path `UdtType` root named `"_types_"` prunes its
subtree; a visited node without a `tags` array yields exactly its own
occurrence; and a well-formed node's occurrence list is non-empty. -/
theorem claim_C8_witness :
    collectUdtOccurrences (JsonValue.str "x") [] "f" = [] ∧
    collectUdtOccurrences
        (JsonValue.obj [("name", JsonValue.str "_types_"),
          ("tagType", JsonValue.str "UdtType"),
          ("tags", JsonValue.arr [leafUdtC8 "A"])]) [] "f" = [] ∧
    collectUdtOccurrences
        (JsonValue.obj [("name", JsonValue.str "A"), ("tagType", JsonValue.str "UdtType")])
        [] "f"
      = selfOccurrence [("name", JsonValue.str "A"), ("tagType", JsonValue.str "UdtType")]
          ["A"] "f" ∧
    selfOccurrence [("name", JsonValue.str "A"), ("tagType", JsonValue.str "UdtType")]
        ["A"] "f" ≠ [] := by
  refine ⟨?_, ?_, ?_, ?_⟩
  · exact claim_C8.1 (JsonValue.str "x") [] "f" (fun es h => JsonValue.noConfusion h)
  · exact claim_C8.2.1 [("name", JsonValue.str "_types_"),
      ("tagType", JsonValue.str "UdtType"),
      ("tags", JsonValue.arr [leafUdtC8 "A"])] [] "f" (by decide)
  · exact claim_C8.2.2.1 [("name", JsonValue.str "A"), ("tagType", JsonValue.str "UdtType")]
      [] "f" (by decide) (fun l h => by simp [lookupPairs] at h)
  · exact (claim_C8.2.2.2.2 [("name", JsonValue.str "A"), ("tagType", JsonValue.str "UdtType")]
      ["A"] "f").mpr ⟨rfl, "A", rfl, by decide, by decide⟩

/-- Claim C10: every occurrence returned by the extractor has a non-empty
pathSegments list whose slash-join equals its path, with parentPathSegments
equal to pathSegments minus its last element; and a node carrying tagType
"UdtType" and a non-empty name is silently skipped when its normalized path
is empty, which happens exactly when every accumulated path segment
(including the node's own name) is whitespace-only or a synthetic root
marker (matched case-insensitively). -/
theorem claim_C10 :
    (∀ (fileName : String) (parsed : JsonValue),
      ∀ occ ∈ (extractUdtFile fileName parsed).udts,
        occ.pathSegments ≠ [] ∧
        occ.path = String.intercalate "/" occ.pathSegments ∧
        occ.parentPathSegments = occ.pathSegments.dropLast) ∧
    (∀ l : List String, normalizePathSegments l = [] ↔
      ∀ seg ∈ l, myTrim seg = "" ∨ isSyntheticRootSegment seg = true) ∧
    (∀ (es : List (String × JsonValue)) (p : List String) (src : String) (nm : String),
      getStrField (JsonValue.obj es) "tagType" = some "UdtType" →
      getStrField (JsonValue.obj es) "name" = some nm → nm ≠ "" →
      (∀ seg ∈ p ++ [nm], myTrim seg = "" ∨ isSyntheticRootSegment seg = true) →
      selfOccurrence es (p ++ [nm]) src = []) := by
  refine ⟨?_, normalizePathSegments_eq_nil_iff, ?_⟩
  · intro fileName parsed occ hocc
    obtain ⟨-, h2, h3, h4, -⟩ := extract_sound fileName parsed occ hocc
    exact ⟨h2, h3, h4⟩
  · intro es p src nm htt hnm hn hall
    have hempty : normalizePathSegments (p ++ [nm]) = [] :=
      (normalizePathSegments_eq_nil_iff _).mpr hall
    unfold selfOccurrence
    split
    · rename_i n' hnm'
      by_cases hcond : getStrField (JsonValue.obj es) "tagType" = some "UdtType" ∧ n' ≠ ""
      · rw [if_pos hcond, if_pos hempty]
      · rw [if_neg hcond]
    · rfl

/-- Concrete parsed document for the C10 witness. -/
def parsedC10 : JsonValue :=
  JsonValue.obj [("name", JsonValue.str "Root"), ("tagType", JsonValue.str "UdtType")]

/-- The occurrence the walker extracts from `parsedC10`. -/
def occC10 : UdtOccurrence :=
  { name := "Root"
    path := "Root"
    pathSegments := ["Root"]
    parentPathSegments := []
    sourceFile := "f"
    definition := JsonValue.obj [("name", JsonValue.str "Root"), ("tagType", JsonValue.str "UdtType")]
    canonical := canonicalizeJson
      (JsonValue.obj [("name", JsonValue.str "Root"), ("tagType", JsonValue.str "UdtType")]) }

/-- Witness for claim C10 at concrete inputs. -/
theorem claim_C10_witness :
    (occC10.pathSegments ≠ [] ∧
      occC10.path = String.intercalate "/" occC10.pathSegments ∧
      occC10.parentPathSegments = occC10.pathSegments.dropLast) ∧
    (normalizePathSegments ["_types_", " "] = [] ↔
      ∀ seg ∈ ["_types_", " "], myTrim seg = "" ∨ isSyntheticRootSegment seg = true) ∧
    selfOccurrence [("name", JsonValue.str " "), ("tagType", JsonValue.str "UdtType")]
        ([] ++ [" "]) "f" = [] := by
  refine ⟨?_, claim_C10.2.1 ["_types_", " "], ?_⟩
  · exact claim_C10.1 "f" parsedC10 occC10 (by decide)
  · exact claim_C10.2.2 [("name", JsonValue.str " "), ("tagType", JsonValue.str "UdtType")]
      [] "f" " " rfl rfl (by decide) (by decide)

/-! ### Difference Classifier and Merge Engine

Embeds `syncUdtDefinitions`, `chooseMergedRootName`, `chooseMergedParentPath`,
`relativeParentPathForRoot`, `buildMergedUdtFile`, `ensureFolderChild`,
`getTagsArray` and `sortFolderTree` from the sync module. -/

/-- The default merged root name. -/
def DEFAULT_MERGED_ROOT_NAME : String := "merged_udt_definitions"

/-- One example definition of a variant (`UdtVariant.examples` element). -/
structure VariantExample where
  fileName : String
  path : String
  definition : JsonValue
deriving DecidableEq

/-- One structural variant of a definition name. -/
structure UdtVariant where
  files : List String
  paths : List String
  examples : List VariantExample
deriving DecidableEq

/-- One per-name difference record. -/
structure UdtDifference where
  name : String
  missingIn : List String
  variants : List UdtVariant
deriving DecidableEq

/-- The run-level output (`UdtSyncResult` in the source).  `mergedByName` is
the internal per-name merge map of the source function, exposed here as a
projection so its specification can be stated. -/
structure UdtSyncResult where
  referenceFile : String
  totalFiles : Nat
  totalUniqueUdts : Nat
  udtsWithDefinitionDifferences : Nat
  udtsMissingInSomeFiles : Nat
  mergedRootName : String
  udtParentPathsByName : List (String × List String)
  differences : List UdtDifference
  mergedByName : List (String × JsonValue)
  mergedUdts : List JsonValue
  mergedFile : JsonValue
deriving DecidableEq

/-- All occurrences of one name across all files, in upload order (the list
stored under the name in the `udtsByName` map). -/
def occurrencesOfName (files : List ParsedUdtFile) (name : String) : List UdtOccurrence :=
  (files.flatMap (fun f => f.udts)).filter (fun o => decide (o.name = name))

/-- The distinct definition names, in first-appearance order (the key order
of the `udtsByName` map). -/
def uniqueNames (files : List ParsedUdtFile) : List String :=
  dedupFirst ((files.flatMap (fun f => f.udts)).map (fun o => o.name))

/-- Keep the first occurrence per source file (the examples map of a
variant). -/
def firstPerFile (seen : List String) : List UdtOccurrence → List UdtOccurrence
  | [] => []
  | o :: os =>
    if o.sourceFile ∈ seen then firstPerFile seen os
    else o :: firstPerFile (o.sourceFile :: seen) os

/-- Comparator on occurrences by source file name. -/
def occFileLe (a b : UdtOccurrence) : Prop := strLe a.sourceFile b.sourceFile = true

instance : DecidableRel occFileLe :=
  fun a b => instDecidableEqBool (strLe a.sourceFile b.sourceFile) true

/-- Build one variant record from the occurrences sharing one canonical
signature. -/
def mkVariant (voccs : List UdtOccurrence) : UdtVariant :=
  { files := sortStrings (dedupFirst (voccs.map (fun o => o.sourceFile)))
    paths := sortStrings (dedupFirst (voccs.map (fun o => o.sourceFile ++ ": " ++ o.path)))
    examples := (List.insertionSort occFileLe (firstPerFile [] voccs)).map (fun o =>
      { fileName := o.sourceFile
        path := o.path
        definition := normalizeJsonForDisplay o.definition }) }

/-- Comparator on variants: lexical join of contributing file names. -/
def variantLe (a b : UdtVariant) : Prop :=
  strLe (String.intercalate "|" a.files) (String.intercalate "|" b.files) = true

instance : DecidableRel variantLe :=
  fun a b => instDecidableEqBool (strLe _ _) true

/-- Partition the occurrences of one name into variants by canonical
signature (map insertion order, then sorted by contributing files). -/
def variantsFor (occs : List UdtOccurrence) : List UdtVariant :=
  List.insertionSort variantLe
    ((dedupFirst (occs.map (fun o => o.canonical))).map (fun c =>
      mkVariant (occs.filter (fun o => decide (o.canonical = c)))))

/-- Files that contain no occurrence of the name. -/
def missingInFor (fileNames : List String) (occs : List UdtOccurrence) : List String :=
  fileNames.filter (fun fn => !(occs.any (fun o => decide (o.sourceFile = fn))))

/-- The chosen merged root name: the reference file's normalized root name if
every reference definition has it as its first path segment, else the
default label. -/
def chooseMergedRootName (f0 : ParsedUdtFile) : String :=
  match normalizeRootName f0.rootName with
  | none => DEFAULT_MERGED_ROOT_NAME
  | some candidateRoot =>
    if f0.udts = [] then candidateRoot
    else if f0.udts.all (fun u => decide (u.pathSegments.head? = some candidateRoot)) then
      candidateRoot
    else DEFAULT_MERGED_ROOT_NAME

/-- Normalize a parent path and strip the merged root name when it is the
leading segment. -/
def relativeParentPathForRoot (parentPathSegments : List String)
    (mergedRootName : String) : List String :=
  match normalizePathSegments parentPathSegments with
  | [] => []
  | first :: rest => if first = mergedRootName then rest else first :: rest

/-- One candidate parent path with its statistics (the `byPath` map values of
`chooseMergedParentPath`). -/
structure ParentPathEntry where
  pathSegments : List String
  count : Nat
  hasReferenceOccurrence : Bool
deriving DecidableEq

/-- The candidate parent paths of a name, grouped by joined path in first
appearance order. -/
def parentPathEntries (occs : List UdtOccurrence) (referenceFile : String)
    (mergedRootName : String) : List ParentPathEntry :=
  (dedupFirst (occs.map (fun o =>
      String.intercalate "/" (relativeParentPathForRoot o.parentPathSegments mergedRootName)))).map
    (fun key =>
      let group := occs.filter (fun o =>
        decide (String.intercalate "/"
          (relativeParentPathForRoot o.parentPathSegments mergedRootName) = key))
      { pathSegments := (group.head?.map (fun o =>
          relativeParentPathForRoot o.parentPathSegments mergedRootName)).getD []
        count := group.length
        hasReferenceOccurrence := group.any (fun o => decide (o.sourceFile = referenceFile)) })

/-- The four-stage comparator of `chooseMergedParentPath`: deepest first,
then highest count, then reference-file presence, then lexical join. -/
def parentLe (a b : ParentPathEntry) : Prop :=
  (if a.pathSegments.length ≠ b.pathSegments.length then
      decide (b.pathSegments.length < a.pathSegments.length)
    else if a.count ≠ b.count then decide (b.count < a.count)
    else if a.hasReferenceOccurrence ≠ b.hasReferenceOccurrence then a.hasReferenceOccurrence
    else strLe (String.intercalate "/" a.pathSegments)
      (String.intercalate "/" b.pathSegments)) = true

instance : DecidableRel parentLe := fun a b => instDecidableEqBool _ true

/-- The resolved parent path of one merged name. -/
def chooseMergedParentPath (occs : List UdtOccurrence) (referenceFile : String)
    (mergedRootName : String) : List String :=
  match List.insertionSort parentLe (parentPathEntries occs referenceFile mergedRootName) with
  | [] => []
  | e :: _ => e.pathSegments

/-- The `tags` array of a node (empty when the property is missing or not an
array, as after the `getTagsArray` reset). -/
def getTagsList (node : JsonValue) : List JsonValue :=
  match node with
  | .obj es =>
    match lookupPairs es "tags" with
    | some (.arr l) => l
    | _ => []
  | _ => []

/-- Replace the value of the first `tags` entry (or append one), modelling
the in-place mutation of `getTagsArray` and of `tags.push`/`tags.sort`. -/
def setTagsEntries (es : List (String × JsonValue)) (l : List JsonValue) :
    List (String × JsonValue) :=
  match es with
  | [] => [("tags", .arr l)]
  | (k, v) :: rest =>
    if k = "tags" then (k, .arr l) :: rest else (k, v) :: setTagsEntries rest l

/-- Write the `tags` array of an object node. -/
def setTags (node : JsonValue) (l : List JsonValue) : JsonValue :=
  match node with
  | .obj es => .obj (setTagsEntries es l)
  | v => v

/-- A fresh folder node, as created by `ensureFolderChild`. -/
def newFolder (seg : String) : JsonValue :=
  .obj [("name", .str seg), ("tagType", .str "Folder"), ("tags", .arr [])]

/-- The `ensureFolderChild` search predicate: an object child with
`tagType === "Folder"` and the wanted name. -/
def isFolderNamed (seg : String) (child : JsonValue) : Bool :=
  decide (getStrField child "tagType" = some "Folder") &&
    decide (getStrField child "name" = some seg)

/-- Split a child list at the first folder child with the given name. -/
def splitFirstFolder (seg : String) :
    List JsonValue → Option (List JsonValue × JsonValue × List JsonValue)
  | [] => none
  | c :: cs =>
    if isFolderNamed seg c then some ([], c, cs)
    else
      match splitFirstFolder seg cs with
      | some (pre, x, post) => some (c :: pre, x, post)
      | none => none

/-- Walk/create folder nodes along a parent path (skipping whitespace-only
segments) and append the definition to the final folder, the functional form
of the `ensureFolderChild` / `getTagsArray(containerNode).push` loop of
`buildMergedUdtFile`. -/
def insertDefAt (node : JsonValue) (path : List String) (t : JsonValue) : JsonValue :=
  match path with
  | [] => setTags node (getTagsList node ++ [t])
  | seg :: rest =>
    if myTrim seg = "" then insertDefAt node rest t
    else
      match splitFirstFolder seg (getTagsList node) with
      | some (pre, c, post) => setTags node (pre ++ insertDefAt c rest t :: post)
      | none => setTags node (getTagsList node ++ [insertDefAt (newFolder seg) rest t])

/-- Folder test of `sortFolderTree`. -/
def isFolderNode (v : JsonValue) : Bool := decide (getStrField v "tagType" = some "Folder")

/-- Sort name of a node: its `name` when that is a string, else the empty
string. -/
def nodeNameForSort (v : JsonValue) : String := (getStrField v "name").getD ""

/-- The `sortFolderTree` comparator: folders before non-folders, then
lexical node name. -/
def folderSortLe (a b : JsonValue) : Prop :=
  (if isFolderNode a ≠ isFolderNode b then isFolderNode a
   else strLe (nodeNameForSort a) (nodeNameForSort b)) = true

instance : DecidableRel folderSortLe := fun a b => instDecidableEqBool _ true

mutual

/-- Structural height of a JSON value, the recursion-depth bound for
`sortFolderTree`. -/
def jheight : JsonValue → Nat
  | .arr l => 1 + jheightList l
  | .obj es => 1 + jheightEntries es
  | _ => 1

/-- Height of a JSON value list. -/
def jheightList : List JsonValue → Nat
  | [] => 0
  | v :: l => max (jheight v) (jheightList l)

/-- Height of an object entry list. -/
def jheightEntries : List (String × JsonValue) → Nat
  | [] => 0
  | (_, v) :: es => max (jheight v) (jheightEntries es)

end

/-- Fuel-indexed `sortFolderTree`: recursively sort folder children, then
sort this node's children (folders first, then by name).  The wrapper below
passes the structural height, which strictly exceeds the recursion depth
through `tags` children, so the fuel-0 base case is never reached on the
wrapper's own argument. -/
def sortFolderTreeF : Nat → JsonValue → JsonValue
  | 0, node => node
  | fuel + 1, node =>
    setTags node (List.insertionSort folderSortLe
      ((getTagsList node).map (fun c => if isFolderNode c then sortFolderTreeF fuel c else c)))

/-- The `sortFolderTree` entry point. -/
def sortFolderTreeTop (t : JsonValue) : JsonValue := sortFolderTreeF (jheight t) t

/-- The tree assembly `buildMergedUdtFile`: a synthetic root folder, one
insertion per merged name in lexical order, then a recursive folder sort. -/
def buildMergedUdtFile (mergedRootName : String) (mergedByName : List (String × JsonValue))
    (parentPaths : List (String × List String)) : JsonValue :=
  let rootName := if myTrim mergedRootName = "" then DEFAULT_MERGED_ROOT_NAME
    else myTrim mergedRootName
  let root : JsonValue :=
    .obj [("name", .str rootName), ("tagType", .str "Folder"), ("tags", .arr [])]
  let built := (sortStrings (mergedByName.map Prod.fst)).foldl (fun acc udtName =>
    match lookupPairs mergedByName udtName with
    | none => acc
    | some d => insertDefAt acc ((lookupPairs parentPaths udtName).getD []) d) root
  sortFolderTreeTop built

/-- The merge choice for one name: the reference file's first occurrence of
the name when present there (`referenceByName.get(name)`), else the first
occurrence in upload order (`occurrences[0]`). -/
def chosenOccurrence (f0 : ParsedUdtFile) (rest : List ParsedUdtFile)
    (name : String) : Option UdtOccurrence :=
  (f0.udts.find? (fun o => decide (o.name = name))).orElse
    (fun _ => (occurrencesOfName (f0 :: rest) name).head?)

/-- Comparator on differences by name. -/
def diffLe (a b : UdtDifference) : Prop := strLe a.name b.name = true

instance : DecidableRel diffLe := fun a b => instDecidableEqBool _ true

/-- Comparator on merge-map entries by name. -/
def pairNameLe (a b : String × JsonValue) : Prop := strLe a.1 b.1 = true

instance : DecidableRel pairNameLe := fun a b => instDecidableEqBool _ true

/-- The body of `syncUdtDefinitions` for a non-empty file list (the source
throws on an empty list; `syncUdtDefinitions` below wraps this in
`Option`). -/
def syncRun (f0 : ParsedUdtFile) (rest : List ParsedUdtFile) : UdtSyncResult :=
  let files := f0 :: rest
  let fileNames := files.map (fun f => f.fileName)
  let referenceFile := f0.fileName
  let mergedRootName := chooseMergedRootName f0
  let names := uniqueNames files
  let differences := List.insertionSort diffLe (names.filterMap (fun name =>
    let occs := occurrencesOfName files name
    let missingIn := missingInFor fileNames occs
    let variants := variantsFor occs
    if missingIn = [] ∧ variants.length ≤ 1 then none
    else some { name := name, missingIn := missingIn, variants := variants }))
  let mergedByName := names.filterMap (fun name =>
    (chosenOccurrence f0 rest name).map (fun o => (name, o.definition)))
  let udtParentPathsByName := names.map (fun name =>
    (name, chooseMergedParentPath (occurrencesOfName files name) referenceFile mergedRootName))
  { referenceFile := referenceFile
    totalFiles := files.length
    totalUniqueUdts := names.length
    udtsWithDefinitionDifferences :=
      (differences.filter (fun d => decide (1 < d.variants.length))).length
    udtsMissingInSomeFiles :=
      (differences.filter (fun d => !decide (d.missingIn = []))).length
    mergedRootName := mergedRootName
    udtParentPathsByName := udtParentPathsByName
    differences := differences
    mergedByName := mergedByName
    mergedUdts := (List.insertionSort pairNameLe mergedByName).map Prod.snd
    mergedFile := buildMergedUdtFile mergedRootName mergedByName udtParentPathsByName }

/-- `syncUdtDefinitions`: the source throws on an empty input list, modelled
as `none`. -/
def syncUdtDefinitions : List ParsedUdtFile → Option UdtSyncResult
  | [] => none
  | f0 :: rest => some (syncRun f0 rest)

/-- The failure modes of a synchronization run. -/
inductive SyncFailure where
  | insufficientInput : SyncFailure
  | noDefinitionsFound : SyncFailure
deriving DecidableEq

/-- The user-facing message of each failure; a constant per failure kind,
mentioning no file name. -/
def syncFailureMessage : SyncFailure → String
  | .insufficientInput => "At least one UDT file is required."
  | .noDefinitionsFound =>
    "No UDT definitions were found. Make sure the files are Ignition UDT definition exports."

/-- Total number of extracted occurrences across all parsed files (the
`foundUdts` reduce of `handleSyncUdts`). -/
def totalOccurrenceCount (files : List ParsedUdtFile) : Nat :=
  (files.map (fun f => f.udts.length)).sum

/-- The pure core of the `handleSyncUdts` run over already-parsed files: no
files is the insufficient-input failure, zero occurrences across all files
is the global no-definitions failure (checked before `syncUdtDefinitions`
is invoked), otherwise the full sync result. -/
def runSync : List ParsedUdtFile → Except SyncFailure UdtSyncResult
  | [] => .error .insufficientInput
  | f0 :: rest =>
    if totalOccurrenceCount (f0 :: rest) = 0 then .error .noDefinitionsFound
    else .ok (syncRun f0 rest)

/-- Claim C9: when the supplied documents parse successfully but contain
zero extracted definition occurrences across all files, the synchronization
run fails with the no-definitions error — the same constant error value for
every such input, naming no specific file — and no partial sync result is
produced. -/
theorem claim_C9 (files : List ParsedUdtFile) (hne : files ≠ [])
    (hzero : totalOccurrenceCount files = 0) :
    runSync files = Except.error SyncFailure.noDefinitionsFound ∧
    (∀ r, runSync files ≠ Except.ok r) ∧
    (∀ files₂, files₂ ≠ [] → totalOccurrenceCount files₂ = 0 →
      runSync files₂ = runSync files) := by
  have hmain : ∀ fs : List ParsedUdtFile, fs ≠ [] → totalOccurrenceCount fs = 0 →
      runSync fs = Except.error SyncFailure.noDefinitionsFound := by
    intro fs hfs hz
    cases fs with
    | nil => exact absurd rfl hfs
    | cons f0 rest => rw [runSync, if_pos hz]
  refine ⟨hmain files hne hzero, ?_, ?_⟩
  · intro r hok
    rw [hmain files hne hzero] at hok
    cases hok
  · intro files₂ hne₂ hzero₂
    rw [hmain files₂ hne₂ hzero₂, hmain files hne hzero]

/-- Witness for claim C9 at a concrete one-file input with no occurrences. -/
theorem claim_C9_witness :
    runSync [{ fileName := "a.json", rootName := none, udts := [] }]
      = Except.error SyncFailure.noDefinitionsFound :=
  (claim_C9 [{ fileName := "a.json", rootName := none, udts := [] }]
    (by decide) rfl).1

/-! ### Claims C5 and C6: classifier membership and merge choice -/

theorem mem_occurrencesOfName {files : List ParsedUdtFile} {name : String}
    {o : UdtOccurrence} :
    o ∈ occurrencesOfName files name ↔
      (∃ f ∈ files, o ∈ f.udts) ∧ o.name = name := by
  unfold occurrencesOfName
  rw [List.mem_filter, List.mem_flatMap]
  simp only [decide_eq_true_eq]

theorem occurrencesOfName_ne_nil_iff {files : List ParsedUdtFile} {name : String} :
    occurrencesOfName files name ≠ [] ↔
      ∃ f ∈ files, ∃ o ∈ f.udts, o.name = name := by
  constructor
  · intro h
    cases hocc : occurrencesOfName files name with
    | nil => exact absurd hocc h
    | cons o os =>
      have ho : o ∈ occurrencesOfName files name := hocc ▸ List.mem_cons_self _ _
      obtain ⟨⟨f, hf, hof⟩, hname⟩ := mem_occurrencesOfName.mp ho
      exact ⟨f, hf, o, hof, hname⟩
  · rintro ⟨f, hf, o, hof, hname⟩ h
    have hmem : o ∈ occurrencesOfName files name :=
      mem_occurrencesOfName.mpr ⟨⟨f, hf, hof⟩, hname⟩
    rw [h] at hmem
    cases hmem

theorem mem_uniqueNames {files : List ParsedUdtFile} {name : String} :
    name ∈ uniqueNames files ↔ occurrencesOfName files name ≠ [] := by
  rw [uniqueNames, mem_dedupFirst, List.mem_map, occurrencesOfName_ne_nil_iff]
  constructor
  · rintro ⟨o, ho, rfl⟩
    obtain ⟨f, hf, hof⟩ := List.mem_flatMap.mp ho
    exact ⟨f, hf, o, hof, rfl⟩
  · rintro ⟨f, hf, o, hof, rfl⟩
    exact ⟨o, List.mem_flatMap.mpr ⟨f, hf, hof⟩, rfl⟩

theorem missingInFor_ne_nil_iff {files : List ParsedUdtFile} {name : String}
    (hsrc : ∀ f ∈ files, ∀ o ∈ f.udts, o.sourceFile = f.fileName)
    (hnodup : (files.map (fun f => f.fileName)).Nodup) :
    missingInFor (files.map (fun f => f.fileName)) (occurrencesOfName files name) ≠ [] ↔
      ∃ f ∈ files, ∀ o ∈ f.udts, o.name ≠ name := by
  unfold missingInFor
  constructor
  · intro hne
    cases hfil : (files.map (fun f => f.fileName)).filter
        (fun fn => !((occurrencesOfName files name).any
          (fun o => decide (o.sourceFile = fn)))) with
    | nil => exact absurd hfil hne
    | cons fn rest2 =>
      have hmem : fn ∈ (files.map (fun f => f.fileName)).filter
          (fun fn => !((occurrencesOfName files name).any
            (fun o => decide (o.sourceFile = fn)))) :=
        hfil ▸ List.mem_cons_self _ _
      rw [List.mem_filter] at hmem
      obtain ⟨hfn, hpred⟩ := hmem
      obtain ⟨f, hf, rfl⟩ := List.mem_map.mp hfn
      refine ⟨f, hf, fun o ho hname => ?_⟩
      have hocc : o ∈ occurrencesOfName files name :=
        mem_occurrencesOfName.mpr ⟨⟨f, hf, ho⟩, hname⟩
      simp only [Bool.not_eq_true', List.any_eq_false, decide_eq_true_eq] at hpred
      exact hpred o hocc (hsrc f hf o ho)
  · rintro ⟨f, hf, hnone⟩ heq
    rw [List.filter_eq_nil_iff] at heq
    have hfn : f.fileName ∈ files.map (fun f => f.fileName) :=
      List.mem_map.mpr ⟨f, hf, rfl⟩
    have h2 := heq _ hfn
    have h3 : (occurrencesOfName files name).any
        (fun o => decide (o.sourceFile = f.fileName)) = true := by
      cases hany : (occurrencesOfName files name).any
          (fun o => decide (o.sourceFile = f.fileName))
      · exact absurd (by rw [hany]; rfl) h2
      · rfl
    rw [List.any_eq_true] at h3
    obtain ⟨o, hocc, hsf⟩ := h3
    rw [decide_eq_true_eq] at hsf
    obtain ⟨⟨f2, hf2, hof2⟩, hname⟩ := mem_occurrencesOfName.mp hocc
    have hsf2 := hsrc f2 hf2 o hof2
    have hfeq : f2 = f :=
      List.inj_on_of_nodup_map hnodup hf2 hf (by rw [← hsf2, hsf])
    subst hfeq
    exact hnone o hof2 hname

theorem two_le_length_of_mem_ne {α : Type} {x y : α} {l : List α}
    (hx : x ∈ l) (hy : y ∈ l) (hxy : x ≠ y) : 2 ≤ l.length := by
  cases l with
  | nil => cases hx
  | cons a tl =>
    cases tl with
    | nil =>
      rcases List.mem_singleton.mp hx with rfl
      rcases List.mem_singleton.mp hy with rfl
      exact absurd rfl hxy
    | cons b tl2 =>
      simp only [List.length_cons]
      omega

theorem one_lt_variantsFor_iff (occs : List UdtOccurrence) :
    1 < (variantsFor occs).length ↔
      ∃ o1 ∈ occs, ∃ o2 ∈ occs, o1.canonical ≠ o2.canonical := by
  rw [variantsFor, List.length_insertionSort, List.length_map]
  constructor
  · intro h
    cases hd : dedupFirst (occs.map (fun o => o.canonical)) with
    | nil => rw [hd] at h; simp at h
    | cons c1 t =>
      cases t with
      | nil => rw [hd] at h; simp at h
      | cons c2 t2 =>
        have hnd := nodup_dedupFirst (occs.map (fun o => o.canonical))
        rw [hd] at hnd
        have hne : c1 ≠ c2 := by
          rcases List.nodup_cons.mp hnd with ⟨h1, -⟩
          exact fun he => h1 (he ▸ List.mem_cons_self _ _)
        have hc1 : c1 ∈ occs.map (fun o => o.canonical) :=
          (mem_dedupFirst _).mp (hd ▸ List.mem_cons_self _ _)
        have hc2 : c2 ∈ occs.map (fun o => o.canonical) :=
          (mem_dedupFirst _).mp (hd ▸ List.mem_cons_of_mem _ (List.mem_cons_self _ _))
        obtain ⟨o1, ho1, h1⟩ := List.mem_map.mp hc1
        obtain ⟨o2, ho2, h2⟩ := List.mem_map.mp hc2
        exact ⟨o1, ho1, o2, ho2, by rw [h1, h2]; exact hne⟩
  · rintro ⟨o1, ho1, o2, ho2, hne⟩
    have h1 : o1.canonical ∈ dedupFirst (occs.map (fun o => o.canonical)) :=
      (mem_dedupFirst _).mpr (List.mem_map.mpr ⟨o1, ho1, rfl⟩)
    have h2 : o2.canonical ∈ dedupFirst (occs.map (fun o => o.canonical)) :=
      (mem_dedupFirst _).mpr (List.mem_map.mpr ⟨o2, ho2, rfl⟩)
    exact two_le_length_of_mem_ne h1 h2 hne

theorem syncRun_differences (f0 : ParsedUdtFile) (rest : List ParsedUdtFile) :
    (syncRun f0 rest).differences = List.insertionSort diffLe
      ((uniqueNames (f0 :: rest)).filterMap (fun name =>
        if missingInFor ((f0 :: rest).map (fun f => f.fileName))
              (occurrencesOfName (f0 :: rest) name) = [] ∧
            (variantsFor (occurrencesOfName (f0 :: rest) name)).length ≤ 1 then none
        else some
          { name := name
            missingIn := missingInFor ((f0 :: rest).map (fun f => f.fileName))
              (occurrencesOfName (f0 :: rest) name)
            variants := variantsFor (occurrencesOfName (f0 :: rest) name) })) := rfl

theorem mem_differences_names_iff (f0 : ParsedUdtFile) (rest : List ParsedUdtFile)
    (name : String) :
    name ∈ (syncRun f0 rest).differences.map (fun d => d.name) ↔
      occurrencesOfName (f0 :: rest) name ≠ [] ∧
        ¬(missingInFor ((f0 :: rest).map (fun f => f.fileName))
              (occurrencesOfName (f0 :: rest) name) = [] ∧
          (variantsFor (occurrencesOfName (f0 :: rest) name)).length ≤ 1) := by
  rw [syncRun_differences]
  rw [((List.perm_insertionSort diffLe _).map (fun d => d.name)).mem_iff]
  rw [List.mem_map]
  constructor
  · rintro ⟨d, hd, hdname⟩
    obtain ⟨nm, hnm, hg⟩ := List.mem_filterMap.mp hd
    by_cases hcond : missingInFor ((f0 :: rest).map (fun f => f.fileName))
          (occurrencesOfName (f0 :: rest) nm) = [] ∧
        (variantsFor (occurrencesOfName (f0 :: rest) nm)).length ≤ 1
    · rw [if_pos hcond] at hg; cases hg
    · rw [if_neg hcond] at hg
      cases hg
      have hnmeq : nm = name := hdname
      subst hnmeq
      exact ⟨mem_uniqueNames.mp hnm, hcond⟩
  · rintro ⟨hocc, hcond⟩
    refine ⟨⟨name, missingInFor ((f0 :: rest).map (fun f => f.fileName))
        (occurrencesOfName (f0 :: rest) name),
      variantsFor (occurrencesOfName (f0 :: rest) name)⟩,
      List.mem_filterMap.mpr ⟨name, mem_uniqueNames.mpr hocc, ?_⟩, rfl⟩
    rw [if_neg hcond]

theorem filter_name_eq_nil_iff (l : List UdtDifference) (name : String) :
    l.filter (fun d => decide (d.name = name)) = [] ↔
      name ∉ l.map (fun d => d.name) := by
  rw [List.filter_eq_nil_iff]
  constructor
  · intro h hmem
    obtain ⟨d, hd, hdn⟩ := List.mem_map.mp hmem
    exact h d hd (by rw [decide_eq_true_eq]; exact hdn)
  · intro h d hd hdn
    rw [decide_eq_true_eq] at hdn
    exact h (List.mem_map.mpr ⟨d, hd, hdn⟩)

/-- Claim C5: a definition name yields a Difference record iff its missingIn
set is non-empty or its variant count is at least 2; consequently a name
whose canonical content is identical in every file that contains it yields
zero Difference entries iff it is also present in every input file.  The
hypotheses reflect the data model: occurrences carry their own file's name
and file names identify files. -/
theorem claim_C5 (f0 : ParsedUdtFile) (rest : List ParsedUdtFile) (name : String)
    (hsrc : ∀ f ∈ f0 :: rest, ∀ o ∈ f.udts, o.sourceFile = f.fileName)
    (hnodup : ((f0 :: rest).map (fun f => f.fileName)).Nodup) :
    (name ∈ (syncRun f0 rest).differences.map (fun d => d.name) ↔
      occurrencesOfName (f0 :: rest) name ≠ [] ∧
        ((∃ f ∈ f0 :: rest, ∀ o ∈ f.udts, o.name ≠ name) ∨
          ∃ o1 ∈ occurrencesOfName (f0 :: rest) name,
            ∃ o2 ∈ occurrencesOfName (f0 :: rest) name, o1.canonical ≠ o2.canonical)) ∧
    (occurrencesOfName (f0 :: rest) name ≠ [] →
      (∀ o1 ∈ occurrencesOfName (f0 :: rest) name,
        ∀ o2 ∈ occurrencesOfName (f0 :: rest) name, o1.canonical = o2.canonical) →
      ((syncRun f0 rest).differences.filter (fun d => decide (d.name = name)) = [] ↔
        ∀ f ∈ f0 :: rest, ∃ o ∈ f.udts, o.name = name)) := by
  have hchar : name ∈ (syncRun f0 rest).differences.map (fun d => d.name) ↔
      occurrencesOfName (f0 :: rest) name ≠ [] ∧
        ((∃ f ∈ f0 :: rest, ∀ o ∈ f.udts, o.name ≠ name) ∨
          ∃ o1 ∈ occurrencesOfName (f0 :: rest) name,
            ∃ o2 ∈ occurrencesOfName (f0 :: rest) name, o1.canonical ≠ o2.canonical) := by
    rw [mem_differences_names_iff]
    constructor
    · rintro ⟨hocc, hcond⟩
      refine ⟨hocc, ?_⟩
      by_cases hmissing : missingInFor ((f0 :: rest).map (fun f => f.fileName))
          (occurrencesOfName (f0 :: rest) name) = []
      · right
        have hlen : ¬(variantsFor (occurrencesOfName (f0 :: rest) name)).length ≤ 1 :=
          fun hl => hcond ⟨hmissing, hl⟩
        exact (one_lt_variantsFor_iff _).mp (by omega)
      · left
        exact (missingInFor_ne_nil_iff hsrc hnodup).mp hmissing
    · rintro ⟨hocc, hdisj⟩
      refine ⟨hocc, ?_⟩
      rintro ⟨hmiss, hlen⟩
      rcases hdisj with h | h
      · exact ((missingInFor_ne_nil_iff hsrc hnodup).mpr h) hmiss
      · have := (one_lt_variantsFor_iff _).mpr h
        omega
  refine ⟨hchar, ?_⟩
  intro hocc hall
  rw [filter_name_eq_nil_iff]
  constructor
  · intro hnot f hf
    by_contra hno
    push_neg at hno
    exact hnot (hchar.mpr ⟨hocc, Or.inl ⟨f, hf, hno⟩⟩)
  · intro hallf hmem
    rcases (hchar.mp hmem).2 with ⟨f, hf, hnone⟩ | ⟨o1, ho1, o2, ho2, hne⟩
    · obtain ⟨o, ho, hon⟩ := hallf f hf
      exact hnone o ho hon
    · exact hne (hall o1 ho1 o2 ho2)

/-- A UdtType node with only a name, for concrete test documents. -/
def leafUdt (nm : String) : JsonValue :=
  JsonValue.obj [("name", JsonValue.str nm), ("tagType", JsonValue.str "UdtType")]

/-- First concrete parsed file for the C5 witness: root folder R with
definitions A and B. -/
def fW1C5 : ParsedUdtFile :=
  extractUdtFile "a" (JsonValue.obj [("name", JsonValue.str "R"),
    ("tagType", JsonValue.str "Folder"),
    ("tags", JsonValue.arr [leafUdt "A", leafUdt "B"])])

/-- Second concrete parsed file for the C5 witness: root folder R with
definition A only. -/
def fW2C5 : ParsedUdtFile :=
  extractUdtFile "b" (JsonValue.obj [("name", JsonValue.str "R"),
    ("tagType", JsonValue.str "Folder"),
    ("tags", JsonValue.arr [leafUdt "A"])])

/-- Witness for claim C5: the name A is canonically identical in both files
and present in both, so it yields zero difference entries. -/
theorem claim_C5_witness :
    (syncRun fW1C5 [fW2C5]).differences.filter (fun d => decide (d.name = "A")) = [] := by
  have h := claim_C5 fW1C5 [fW2C5] "A" (by decide) (by decide)
  exact (h.2 (by decide) (by decide)).mpr (by decide)

theorem lookupPairs_pgraph {α : Type} (g : String → Option α) (keys : List String)
    (key : String) :
    lookupPairs (keys.filterMap (fun k => (g k).map (fun v => (k, v)))) key
      = if key ∈ keys then g key else none := by
  induction keys with
  | nil => simp [lookupPairs]
  | cons k rest ih =>
    rw [List.filterMap_cons]
    cases hk : g k with
    | none =>
      show lookupPairs (rest.filterMap (fun k => (g k).map (fun v => (k, v)))) key
        = if key ∈ k :: rest then g key else none
      rw [ih]
      by_cases hkey : k = key
      · have hmemc : key ∈ k :: rest := by
          rw [← hkey]; exact List.mem_cons_self _ _
        rw [if_pos hmemc]
        by_cases hmem : key ∈ rest
        · rw [if_pos hmem]
        · rw [if_neg hmem, ← hkey, hk]
      · by_cases hmem : key ∈ rest
        · rw [if_pos hmem, if_pos (List.mem_cons_of_mem _ hmem)]
        · have hnotc : key ∉ k :: rest := by
            intro hc
            rcases List.mem_cons.mp hc with h | h
            · exact hkey h.symm
            · exact hmem h
          rw [if_neg hmem, if_neg hnotc]
    | some v =>
      show lookupPairs ((k, v) :: rest.filterMap (fun k => (g k).map (fun v => (k, v)))) key
        = if key ∈ k :: rest then g key else none
      rw [lookupPairs]
      by_cases hkey : k = key
      · have hmemc : key ∈ k :: rest := by
          rw [← hkey]; exact List.mem_cons_self _ _
        rw [if_pos hkey, if_pos hmemc, ← hkey, hk]
      · rw [if_neg hkey, ih]
        by_cases hmem : key ∈ rest
        · rw [if_pos hmem, if_pos (List.mem_cons_of_mem _ hmem)]
        · have hnotc : key ∉ k :: rest := by
            intro hc
            rcases List.mem_cons.mp hc with h | h
            · exact hkey h.symm
            · exact hmem h
          rw [if_neg hmem, if_neg hnotc]

theorem syncRun_mergedByName (f0 : ParsedUdtFile) (rest : List ParsedUdtFile) :
    (syncRun f0 rest).mergedByName = (uniqueNames (f0 :: rest)).filterMap (fun name =>
      (chosenOccurrence f0 rest name).map (fun o => (name, o.definition))) := rfl

/-- Claim C6: for every definition name present in at least one file, the
merged definition chosen by the synchronization run is the reference file's
first occurrence of that name when the name is present there, and otherwise
the first occurrence of that name in upload order across all files. -/
theorem claim_C6 (f0 : ParsedUdtFile) (rest : List ParsedUdtFile) (name : String)
    (hpres : occurrencesOfName (f0 :: rest) name ≠ []) :
    lookupPairs (syncRun f0 rest).mergedByName name
      = (chosenOccurrence f0 rest name).map (fun o => o.definition) ∧
    (∀ o, f0.udts.find? (fun o2 => decide (o2.name = name)) = some o →
      chosenOccurrence f0 rest name = some o) ∧
    (f0.udts.find? (fun o2 => decide (o2.name = name)) = none →
      chosenOccurrence f0 rest name = (occurrencesOfName (f0 :: rest) name).head?) := by
  refine ⟨?_, ?_, ?_⟩
  · rw [syncRun_mergedByName]
    have hfun : (fun nm => (chosenOccurrence f0 rest nm).map (fun o => (nm, o.definition)))
        = fun nm => ((chosenOccurrence f0 rest nm).map (fun o => o.definition)).map
          (fun v => (nm, v)) := by
      funext nm
      rw [Option.map_map]
      rfl
    rw [hfun, lookupPairs_pgraph (fun nm => (chosenOccurrence f0 rest nm).map
      (fun o => o.definition)) (uniqueNames (f0 :: rest)) name,
      if_pos (mem_uniqueNames.mpr hpres)]
  · intro o ho
    unfold chosenOccurrence
    rw [ho]
    rfl
  · intro hnone
    unfold chosenOccurrence
    rw [hnone]
    rfl

/-- First concrete parsed file for the C6 witness: contains only A. -/
def fW1C6 : ParsedUdtFile := extractUdtFile "a" (leafUdt "A")

/-- Second concrete parsed file for the C6 witness: contains only B. -/
def fW2C6 : ParsedUdtFile := extractUdtFile "b" (leafUdt "B")

/-- Witness for claim C6: B is absent from the reference file, so its merged
definition is the first occurrence in upload order. -/
theorem claim_C6_witness :
    lookupPairs (syncRun fW1C6 [fW2C6]).mergedByName "B"
      = (chosenOccurrence fW1C6 [fW2C6] "B").map (fun o => o.definition) ∧
    chosenOccurrence fW1C6 [fW2C6] "B" = (occurrencesOfName [fW1C6, fW2C6] "B").head? := by
  have h := claim_C6 fW1C6 [fW2C6] "B" (by decide)
  exact ⟨h.1, h.2.2 (by decide)⟩

/-! ### Claim C1: uniqueness of merged definitions in the output

`countIn d t` counts the nodes equal to `d` along the tags-tree rooted at
`t` (the node itself plus, recursively, the children of its effective
`tags` array, i.e. the first `tags` property when it is an array — the same
traversal as the walker's). -/

mutual

/-- Number of nodes equal to `d` in the tags-tree rooted at the node. -/
def countIn (d : JsonValue) : JsonValue → Nat
  | .obj es => (if JsonValue.obj es = d then 1 else 0) + countInEntries d es
  | v => if v = d then 1 else 0

/-- Walk the entry list to the first `tags` property and count inside it. -/
def countInEntries (d : JsonValue) : List (String × JsonValue) → Nat
  | [] => 0
  | (k, v) :: es => if k = "tags" then countInTagsVal d v else countInEntries d es

/-- Count inside a `tags` value only when it is an array. -/
def countInTagsVal (d : JsonValue) : JsonValue → Nat
  | .arr l => countInList d l
  | _ => 0

/-- Sum of the counts over a child list. -/
def countInList (d : JsonValue) : List JsonValue → Nat
  | [] => 0
  | c :: cs => countIn d c + countInList d cs

end

theorem countInEntries_lookup (d : JsonValue) (es : List (String × JsonValue)) :
    countInEntries d es =
      (match lookupPairs es "tags" with
       | some v => countInTagsVal d v
       | none => 0) := by
  induction es with
  | nil => rfl
  | cons e es ih =>
    obtain ⟨k, v⟩ := e
    by_cases hk : k = "tags" <;> simp [countInEntries, lookupPairs, hk, ih]

theorem countIn_obj (d : JsonValue) (es : List (String × JsonValue)) :
    countIn d (.obj es) =
      (if JsonValue.obj es = d then 1 else 0) + countInList d (getTagsList (.obj es)) := by
  show (if JsonValue.obj es = d then 1 else 0) + countInEntries d es = _
  rw [countInEntries_lookup]
  cases hl : lookupPairs es "tags" with
  | none => simp [getTagsList, hl, countInList]
  | some v => cases v <;> simp [getTagsList, hl, countInTagsVal, countInList]

theorem setTags_obj (es : List (String × JsonValue)) (l : List JsonValue) :
    setTags (.obj es) l = .obj (setTagsEntries es l) := rfl

theorem lookup_setTagsEntries_tags (es : List (String × JsonValue)) (l : List JsonValue) :
    lookupPairs (setTagsEntries es l) "tags" = some (.arr l) := by
  induction es with
  | nil => rfl
  | cons e es ih =>
    obtain ⟨k, v⟩ := e
    by_cases hk : k = "tags" <;> simp [setTagsEntries, lookupPairs, hk, ih]

theorem lookup_setTagsEntries_ne (es : List (String × JsonValue)) (l : List JsonValue)
    (key : String) (hk : key ≠ "tags") :
    lookupPairs (setTagsEntries es l) key = lookupPairs es key := by
  have hk2 : ¬("tags" = key) := fun h => hk h.symm
  induction es with
  | nil => simp [setTagsEntries, lookupPairs, hk2]
  | cons e es ih =>
    obtain ⟨k, v⟩ := e
    by_cases hkt : k = "tags"
    · subst hkt
      simp [setTagsEntries, lookupPairs, hk2]
    · simp [setTagsEntries, lookupPairs, hkt, ih]

theorem getTagsList_setTagsEntries (es : List (String × JsonValue)) (l : List JsonValue) :
    getTagsList (.obj (setTagsEntries es l)) = l := by
  simp [getTagsList, lookup_setTagsEntries_tags]

theorem getStrField_setTags (node : JsonValue) (l : List JsonValue) (key : String)
    (hk : key ≠ "tags") :
    getStrField (setTags node l) key = getStrField node key := by
  cases node
  case obj es =>
    show getStrField (.obj (setTagsEntries es l)) key = _
    simp [getStrField, lookup_setTagsEntries_ne es l key hk]
  all_goals rfl

theorem folder_ne_udt {a d : JsonValue}
    (ha : getStrField a "tagType" = some "Folder")
    (hd : getStrField d "tagType" = some "UdtType") : a ≠ d := by
  intro he
  rw [he, hd] at ha
  exact absurd (Option.some.inj ha) (by decide)

theorem countInList_append (d : JsonValue) (l₁ l₂ : List JsonValue) :
    countInList d (l₁ ++ l₂) = countInList d l₁ + countInList d l₂ := by
  induction l₁ with
  | nil => simp [countInList]
  | cons c cs ih => simp [countInList, ih, Nat.add_assoc]

theorem countInList_eq_sum (d : JsonValue) (l : List JsonValue) :
    countInList d l = (l.map (countIn d)).sum := by
  induction l with
  | nil => rfl
  | cons c cs ih => simp [countInList, ih]

theorem countInList_eq_zero {d : JsonValue} {l : List JsonValue}
    (h : ∀ c ∈ l, countIn d c = 0) : countInList d l = 0 := by
  induction l with
  | nil => rfl
  | cons c cs ih =>
    simp only [countInList]
    rw [h c (List.mem_cons_self _ _), ih (fun x hx => h x (List.mem_cons_of_mem _ hx))]

theorem jweight_getTagsList_lt {c t : JsonValue} (h : c ∈ getTagsList t) :
    jweight c < jweight t := by
  cases t
  case obj es =>
    cases hl : lookupPairs es "tags" with
    | none =>
      have h2 : getTagsList (JsonValue.obj es) = [] := by simp [getTagsList, hl]
      rw [h2] at h
      cases h
    | some v =>
      cases v
      case arr l =>
        have h2 : getTagsList (JsonValue.obj es) = l := by simp [getTagsList, hl]
        rw [h2] at h
        have h1 : jweight c ≤ jweightList l := jweight_le_of_mem_list h
        have h3 : jweight (JsonValue.arr l) ≤ jweightEntries es :=
          jweight_le_of_mem_entries (lookupPairs_mem hl)
        have h4 : jweight (JsonValue.arr l) = 1 + jweightList l := rfl
        have h5 : jweight (JsonValue.obj es) = 1 + jweightEntries es := rfl
        omega
      all_goals
        (have h2 : getTagsList (JsonValue.obj es) = [] := by simp [getTagsList, hl]
         rw [h2] at h
         cases h)
  all_goals simp [getTagsList] at h

theorem countIn_eq_zero_of_weight_lt (d : JsonValue) :
    ∀ (n : Nat) (t : JsonValue), jweight t ≤ n → jweight t < jweight d →
      countIn d t = 0 := by
  intro n
  induction n with
  | zero =>
    intro t ht _
    have := jweight_pos t
    omega
  | succ n ih =>
    intro t ht hlt
    have hne : t ≠ d := by
      intro he
      rw [he] at hlt
      exact Nat.lt_irrefl _ hlt
    cases t
    case obj es =>
      have hz : countInList d (getTagsList (JsonValue.obj es)) = 0 :=
        countInList_eq_zero (fun c hc => by
          have hcw := jweight_getTagsList_lt hc
          exact ih c (by omega) (by omega))
      rw [countIn_obj, if_neg hne, hz]
    all_goals simp [countIn, hne]

theorem countIn_self (d : JsonValue) : countIn d d = 1 := by
  cases d
  case obj es =>
    have hz : countInList (JsonValue.obj es) (getTagsList (JsonValue.obj es)) = 0 :=
      countInList_eq_zero (fun c hc =>
        countIn_eq_zero_of_weight_lt (JsonValue.obj es) (jweight c) c (Nat.le_refl _)
          (jweight_getTagsList_lt hc))
    rw [countIn_obj, if_pos rfl, hz]
  all_goals simp [countIn]

mutual

/-- No strict tags-descendant of the node carries `tagType = "UdtType"`: the
nesting-freeness side condition of the merged-tree uniqueness invariant. -/
def nestedUdtFree : JsonValue → Bool
  | .obj es => nestedFreeEntries es
  | _ => true

/-- Freeness along the entry list up to the first `tags` property. -/
def nestedFreeEntries : List (String × JsonValue) → Bool
  | [] => true
  | (k, v) :: es => if k = "tags" then nestedFreeTagsVal v else nestedFreeEntries es

/-- Freeness of a `tags` value (non-arrays have no children). -/
def nestedFreeTagsVal : JsonValue → Bool
  | .arr l => nestedFreeList l
  | _ => true

/-- Every child is not itself a definition node and is recursively free. -/
def nestedFreeList : List JsonValue → Bool
  | [] => true
  | c :: cs =>
    (!decide (getStrField c "tagType" = some "UdtType")) && nestedUdtFree c &&
      nestedFreeList cs

end

theorem nestedFreeList_mem {l : List JsonValue} {c : JsonValue}
    (hfree : nestedFreeList l = true) (hc : c ∈ l) :
    getStrField c "tagType" ≠ some "UdtType" ∧ nestedUdtFree c = true := by
  induction l with
  | nil => cases hc
  | cons a l ih =>
    simp only [nestedFreeList, Bool.and_eq_true, Bool.not_eq_true',
      decide_eq_false_iff_not] at hfree
    rcases List.mem_cons.mp hc with rfl | hc2
    · exact ⟨hfree.1.1, hfree.1.2⟩
    · exact ih hfree.2 hc2

theorem nestedFreeEntries_lookup (es : List (String × JsonValue)) :
    nestedFreeEntries es =
      (match lookupPairs es "tags" with
       | some v => nestedFreeTagsVal v
       | none => true) := by
  induction es with
  | nil => rfl
  | cons e es ih =>
    obtain ⟨k, v⟩ := e
    by_cases hk : k = "tags" <;> simp [nestedFreeEntries, lookupPairs, hk, ih]

theorem nestedUdtFree_child {t c : JsonValue} (hfree : nestedUdtFree t = true)
    (hc : c ∈ getTagsList t) :
    getStrField c "tagType" ≠ some "UdtType" ∧ nestedUdtFree c = true := by
  cases t
  case obj es =>
    have hfe : nestedFreeEntries es = true := hfree
    rw [nestedFreeEntries_lookup] at hfe
    cases hl : lookupPairs es "tags" with
    | none =>
      have h2 : getTagsList (JsonValue.obj es) = [] := by simp [getTagsList, hl]
      rw [h2] at hc
      cases hc
    | some v =>
      rw [hl] at hfe
      cases v
      case arr l =>
        have h2 : getTagsList (JsonValue.obj es) = l := by simp [getTagsList, hl]
        rw [h2] at hc
        have hfl : nestedFreeList l = true := hfe
        exact nestedFreeList_mem hfl hc
      all_goals
        (have h2 : getTagsList (JsonValue.obj es) = [] := by simp [getTagsList, hl]
         rw [h2] at hc
         cases hc)
  all_goals simp [getTagsList] at hc

theorem countIn_eq_zero_of_free (d : JsonValue)
    (hd : getStrField d "tagType" = some "UdtType") :
    ∀ (n : Nat) (t : JsonValue), jweight t ≤ n → nestedUdtFree t = true → t ≠ d →
      countIn d t = 0 := by
  intro n
  induction n with
  | zero =>
    intro t ht _ _
    have := jweight_pos t
    omega
  | succ n ih =>
    intro t ht hfree hne
    cases t
    case obj es =>
      have hz : countInList d (getTagsList (JsonValue.obj es)) = 0 :=
        countInList_eq_zero (fun c hc => by
          obtain ⟨hct, hcf⟩ := nestedUdtFree_child hfree hc
          have hcw := jweight_getTagsList_lt hc
          have hcne : c ≠ d := fun he => hct (by rw [he]; exact hd)
          exact ih c (by omega) hcf hcne)
      rw [countIn_obj, if_neg hne, hz]
    all_goals simp [countIn, hne]

theorem exists_obj_of_getStrField {v : JsonValue} {key s : String}
    (h : getStrField v key = some s) : ∃ es, v = JsonValue.obj es := by
  cases v
  case obj es => exact ⟨es, rfl⟩
  all_goals exact absurd h (by simp [getStrField])

theorem countIn_newFolder (d : JsonValue) (seg : String)
    (hd : getStrField d "tagType" = some "UdtType") :
    countIn d (newFolder seg) = 0 := by
  have hne : newFolder seg ≠ d :=
    folder_ne_udt (show getStrField (newFolder seg) "tagType" = some "Folder" from rfl) hd
  rw [show newFolder seg = JsonValue.obj [("name", JsonValue.str seg),
    ("tagType", JsonValue.str "Folder"), ("tags", JsonValue.arr [])] from rfl] at hne ⊢
  rw [countIn_obj, if_neg hne]
  rfl

theorem splitFirstFolder_spec (seg : String) :
    ∀ (l pre post : List JsonValue) (c : JsonValue),
      splitFirstFolder seg l = some (pre, c, post) →
      l = pre ++ c :: post ∧ isFolderNamed seg c = true := by
  intro l
  induction l with
  | nil =>
    intro pre post c h
    simp [splitFirstFolder] at h
  | cons a l ih =>
    intro pre post c h
    rw [splitFirstFolder] at h
    by_cases hfa : isFolderNamed seg a = true
    · rw [if_pos hfa] at h
      simp only [Option.some.injEq, Prod.mk.injEq] at h
      obtain ⟨h1, h2, h3⟩ := h
      subst h1; subst h2; subst h3
      exact ⟨rfl, hfa⟩
    · rw [if_neg hfa] at h
      cases hs : splitFirstFolder seg l with
      | none => rw [hs] at h; simp at h
      | some trip =>
        obtain ⟨pre2, c2, post2⟩ := trip
        rw [hs] at h
        simp only [Option.some.injEq, Prod.mk.injEq] at h
        obtain ⟨h1, h2, h3⟩ := h
        subst h1; subst h2; subst h3
        obtain ⟨hl2, hf2⟩ := ih pre2 post2 c2 hs
        exact ⟨by rw [hl2]; rfl, hf2⟩

theorem isFolderNamed_tagType {seg : String} {c : JsonValue}
    (h : isFolderNamed seg c = true) : getStrField c "tagType" = some "Folder" := by
  unfold isFolderNamed at h
  rw [Bool.and_eq_true] at h
  exact of_decide_eq_true h.1

theorem getStrField_insertDefAt (t : JsonValue) (key : String) (hk : key ≠ "tags") :
    ∀ (path : List String) (node : JsonValue),
      getStrField (insertDefAt node path t) key = getStrField node key := by
  intro path
  induction path with
  | nil =>
    intro node
    rw [insertDefAt, getStrField_setTags _ _ _ hk]
  | cons seg rest ih =>
    intro node
    rw [insertDefAt]
    by_cases htrim : myTrim seg = ""
    · rw [if_pos htrim]
      exact ih node
    · rw [if_neg htrim]
      cases hs : splitFirstFolder seg (getTagsList node) with
      | some trip =>
        obtain ⟨pre, c, post⟩ := trip
        simp only [hs]
        rw [getStrField_setTags _ _ _ hk]
      | none =>
        simp only [hs]
        rw [getStrField_setTags _ _ _ hk]

theorem countIn_insertDefAt (d t : JsonValue)
    (hd : getStrField d "tagType" = some "UdtType") :
    ∀ (path : List String) (node : JsonValue),
      getStrField node "tagType" = some "Folder" →
      countIn d (insertDefAt node path t) = countIn d node + countIn d t := by
  intro path
  induction path with
  | nil =>
    intro node hfolder
    obtain ⟨es, rfl⟩ := exists_obj_of_getStrField hfolder
    rw [insertDefAt, setTags_obj, countIn_obj, getTagsList_setTagsEntries,
      countInList_append]
    have hne : JsonValue.obj (setTagsEntries es (getTagsList (JsonValue.obj es) ++ [t]))
        ≠ d := by
      refine folder_ne_udt ?_ hd
      rw [← setTags_obj, getStrField_setTags _ _ _ (by decide)]
      exact hfolder
    rw [if_neg hne, countIn_obj, if_neg (folder_ne_udt hfolder hd)]
    have h1 : countInList d [t] = countIn d t := by simp [countInList]
    omega
  | cons seg rest ih =>
    intro node hfolder
    obtain ⟨es, rfl⟩ := exists_obj_of_getStrField hfolder
    rw [insertDefAt]
    by_cases htrim : myTrim seg = ""
    · rw [if_pos htrim]
      exact ih _ hfolder
    · rw [if_neg htrim]
      cases hs : splitFirstFolder seg (getTagsList (JsonValue.obj es)) with
      | some trip =>
        obtain ⟨pre, c, post⟩ := trip
        simp only [hs]
        obtain ⟨hsplit, hcf⟩ :=
          splitFirstFolder_spec seg (getTagsList (JsonValue.obj es)) pre post c hs
        have hcfolder : getStrField c "tagType" = some "Folder" :=
          isFolderNamed_tagType hcf
        rw [setTags_obj, countIn_obj, getTagsList_setTagsEntries]
        have hne : JsonValue.obj (setTagsEntries es (pre ++ insertDefAt c rest t :: post))
            ≠ d := by
          refine folder_ne_udt ?_ hd
          rw [← setTags_obj, getStrField_setTags _ _ _ (by decide)]
          exact hfolder
        rw [if_neg hne, countInList_append]
        simp only [countInList]
        rw [ih c hcfolder, countIn_obj, if_neg (folder_ne_udt hfolder hd), hsplit,
          countInList_append]
        simp only [countInList]
        omega
      | none =>
        simp only [hs]
        rw [setTags_obj, countIn_obj, getTagsList_setTagsEntries]
        have hne : JsonValue.obj (setTagsEntries es
            (getTagsList (JsonValue.obj es) ++ [insertDefAt (newFolder seg) rest t]))
            ≠ d := by
          refine folder_ne_udt ?_ hd
          rw [← setTags_obj, getStrField_setTags _ _ _ (by decide)]
          exact hfolder
        rw [if_neg hne, countInList_append]
        simp only [countInList]
        rw [ih (newFolder seg) rfl, countIn_newFolder d seg hd,
          countIn_obj, if_neg (folder_ne_udt hfolder hd)]
        omega

theorem countInList_perm (d : JsonValue) {l₁ l₂ : List JsonValue} (h : l₁.Perm l₂) :
    countInList d l₁ = countInList d l₂ := by
  rw [countInList_eq_sum, countInList_eq_sum]
  exact (h.map (countIn d)).sum_eq

theorem countIn_sortFolderTreeF (d : JsonValue)
    (hd : getStrField d "tagType" = some "UdtType") :
    ∀ (fuel : Nat) (node : JsonValue), getStrField node "tagType" = some "Folder" →
      countIn d (sortFolderTreeF fuel node) = countIn d node := by
  intro fuel
  induction fuel with
  | zero => intro node _; rfl
  | succ fuel ih =>
    intro node hfolder
    obtain ⟨es, rfl⟩ := exists_obj_of_getStrField hfolder
    rw [sortFolderTreeF, setTags_obj, countIn_obj, getTagsList_setTagsEntries]
    have hne : JsonValue.obj (setTagsEntries es (List.insertionSort folderSortLe
        ((getTagsList (JsonValue.obj es)).map (fun c =>
          if isFolderNode c then sortFolderTreeF fuel c else c)))) ≠ d := by
      refine folder_ne_udt ?_ hd
      rw [← setTags_obj, getStrField_setTags _ _ _ (by decide)]
      exact hfolder
    rw [if_neg hne,
      countInList_perm d (List.perm_insertionSort folderSortLe _),
      countInList_eq_sum, List.map_map]
    have hmap : ((getTagsList (JsonValue.obj es)).map
        ((countIn d) ∘ (fun c => if isFolderNode c then sortFolderTreeF fuel c else c)))
        = (getTagsList (JsonValue.obj es)).map (countIn d) := by
      apply List.map_congr_left
      intro c hc
      show countIn d (if isFolderNode c then sortFolderTreeF fuel c else c) = countIn d c
      by_cases hcf : isFolderNode c = true
      · rw [if_pos hcf]
        have hcf2 : getStrField c "tagType" = some "Folder" := by
          have h2 := hcf
          unfold isFolderNode at h2
          exact of_decide_eq_true h2
        exact ih c hcf2
      · rw [if_neg hcf]
    rw [hmap, ← countInList_eq_sum, countIn_obj, if_neg (folder_ne_udt hfolder hd)]

theorem countIn_sortFolderTreeTop (d node : JsonValue)
    (hd : getStrField d "tagType" = some "UdtType")
    (hfolder : getStrField node "tagType" = some "Folder") :
    countIn d (sortFolderTreeTop node) = countIn d node :=
  countIn_sortFolderTreeF d hd (jheight node) node hfolder

theorem getStrField_insertFold (mergedByName : List (String × JsonValue))
    (parentPaths : List (String × List String)) (key : String) (hk : key ≠ "tags") :
    ∀ (names : List String) (node : JsonValue),
      getStrField (names.foldl (fun acc udtName =>
          match lookupPairs mergedByName udtName with
          | none => acc
          | some dd => insertDefAt acc ((lookupPairs parentPaths udtName).getD []) dd)
        node) key = getStrField node key := by
  intro names
  induction names with
  | nil => intro node; rfl
  | cons nm names ihn =>
    intro node
    rw [List.foldl_cons]
    cases hl : lookupPairs mergedByName nm with
    | none =>
      simp only [hl]
      exact ihn node
    | some dd =>
      simp only [hl]
      rw [ihn, getStrField_insertDefAt dd key hk]

theorem countIn_insertFold (d : JsonValue)
    (hd : getStrField d "tagType" = some "UdtType")
    (mergedByName : List (String × JsonValue))
    (parentPaths : List (String × List String)) :
    ∀ (names : List String) (node : JsonValue),
      getStrField node "tagType" = some "Folder" →
      countIn d (names.foldl (fun acc udtName =>
          match lookupPairs mergedByName udtName with
          | none => acc
          | some dd => insertDefAt acc ((lookupPairs parentPaths udtName).getD []) dd)
        node)
        = countIn d node + (names.map (fun udtName =>
            match lookupPairs mergedByName udtName with
            | none => 0
            | some dd => countIn d dd)).sum := by
  intro names
  induction names with
  | nil => intro node _; simp
  | cons nm names ihn =>
    intro node hfolder
    rw [List.foldl_cons, List.map_cons, List.sum_cons]
    cases hl : lookupPairs mergedByName nm with
    | none =>
      simp only [hl]
      rw [ihn node hfolder]
      omega
    | some dd =>
      simp only [hl]
      have hstep : getStrField (insertDefAt node ((lookupPairs parentPaths nm).getD []) dd)
          "tagType" = some "Folder" := by
        rw [getStrField_insertDefAt dd "tagType" (by decide)]
        exact hfolder
      rw [ihn _ hstep,
        countIn_insertDefAt d dd hd ((lookupPairs parentPaths nm).getD []) node hfolder]
      omega

theorem sum_map_eq_zero {α : Type} {l : List α} {f : α → Nat}
    (h : ∀ y ∈ l, f y = 0) : (l.map f).sum = 0 := by
  induction l with
  | nil => rfl
  | cons a l ih =>
    rw [List.map_cons, List.sum_cons, h a (List.mem_cons_self _ _),
      ih (fun y hy => h y (List.mem_cons_of_mem _ hy))]

theorem sum_map_single {α : Type} (x : α) (f : α → Nat) :
    ∀ (l : List α), l.Nodup → x ∈ l → f x = 1 →
      (∀ y ∈ l, y ≠ x → f y = 0) → (l.map f).sum = 1 := by
  intro l
  induction l with
  | nil =>
    intro _ hx _ _
    cases hx
  | cons a l ih =>
    intro hnd hx hfx h0
    rw [List.map_cons, List.sum_cons]
    rcases List.mem_cons.mp hx with hxa | hx2
    · subst hxa
      have hz : (l.map f).sum = 0 := sum_map_eq_zero (fun y hy =>
        h0 y (List.mem_cons_of_mem _ hy)
          (fun he => (List.nodup_cons.mp hnd).1 (he ▸ hy)))
      rw [hfx, hz]
    · have hane : a ≠ x := fun he =>
        (List.nodup_cons.mp hnd).1 (by rw [he]; exact hx2)
      rw [h0 a (List.mem_cons_self _ _) hane,
        ih (List.nodup_cons.mp hnd).2 hx2 hfx
          (fun y hy hyne => h0 y (List.mem_cons_of_mem _ hy) hyne)]

theorem countP_congr_mem {α : Type} {p q : α → Bool} :
    ∀ {l : List α}, (∀ x ∈ l, p x = q x) → l.countP p = l.countP q := by
  intro l
  induction l with
  | nil => intro _; rfl
  | cons a l ih =>
    intro h
    rw [List.countP_cons, List.countP_cons, h a (List.mem_cons_self _ _),
      ih (fun x hx => h x (List.mem_cons_of_mem _ hx))]

theorem countP_fst_single {β : Type} (name : String) :
    ∀ (l : List (String × β)), (l.map Prod.fst).Nodup → name ∈ l.map Prod.fst →
      l.countP (fun p => decide (p.1 = name)) = 1 := by
  intro l
  induction l with
  | nil =>
    intro _ hm
    cases hm
  | cons e l ih =>
    intro hnd hm
    rw [List.map_cons] at hnd hm
    rw [List.countP_cons]
    rcases List.mem_cons.mp hm with hname | hm2
    · have hp : decide (e.1 = name) = true := by
        rw [hname]
        exact decide_eq_true rfl
      rw [if_pos hp]
      have hz : l.countP (fun p => decide (p.1 = name)) = 0 := by
        rw [List.countP_eq_zero]
        intro a ha hpa
        have h1 : a.1 = name := of_decide_eq_true hpa
        have hninl : e.1 ∉ l.map Prod.fst := (List.nodup_cons.mp hnd).1
        exact hninl (by
          rw [← hname, ← h1]
          exact List.mem_map_of_mem Prod.fst ha)
      rw [hz]
    · have hane : ¬(e.1 = name) := fun he =>
        (List.nodup_cons.mp hnd).1 (by rw [he]; exact hm2)
      rw [if_neg (by simp only [decide_eq_true_eq]; exact hane),
        ih (List.nodup_cons.mp hnd).2 hm2]

theorem chosenOccurrence_mem {f0 : ParsedUdtFile} {rest : List ParsedUdtFile}
    {nm : String} {o : UdtOccurrence} (h : chosenOccurrence f0 rest nm = some o) :
    (∃ f ∈ f0 :: rest, o ∈ f.udts) ∧ o.name = nm := by
  unfold chosenOccurrence at h
  cases hf : f0.udts.find? (fun o2 => decide (o2.name = nm)) with
  | some o2 =>
    rw [hf] at h
    have ho : some o2 = some o := h
    cases ho
    refine ⟨⟨f0, List.mem_cons_self _ _, List.mem_of_find?_eq_some hf⟩, ?_⟩
    have hpred := List.find?_some hf
    exact of_decide_eq_true hpred
  | none =>
    rw [hf] at h
    have h2 : (occurrencesOfName (f0 :: rest) nm).head? = some o := h
    have hmem : o ∈ occurrencesOfName (f0 :: rest) nm := by
      cases hocc : occurrencesOfName (f0 :: rest) nm with
      | nil => rw [hocc] at h2; cases h2
      | cons a l =>
        rw [hocc] at h2
        have h3 : some a = some o := h2
        cases h3
        exact List.mem_cons_self _ _
    obtain ⟨⟨f, hfm, hof⟩, hname⟩ := mem_occurrencesOfName.mp hmem
    exact ⟨⟨f, hfm, hof⟩, hname⟩

theorem chosenOccurrence_isSome {f0 : ParsedUdtFile} {rest : List ParsedUdtFile}
    {name : String} (hpres : occurrencesOfName (f0 :: rest) name ≠ []) :
    (chosenOccurrence f0 rest name).isSome = true := by
  unfold chosenOccurrence
  cases hf : f0.udts.find? (fun o2 => decide (o2.name = name)) with
  | some o => rfl
  | none =>
    cases hocc : occurrencesOfName (f0 :: rest) name with
    | nil => exact absurd hocc hpres
    | cons a l => rfl

theorem mem_mergedByName {f0 : ParsedUdtFile} {rest : List ParsedUdtFile}
    {p : String × JsonValue} (h : p ∈ (syncRun f0 rest).mergedByName) :
    ∃ o : UdtOccurrence, (∃ f ∈ f0 :: rest, o ∈ f.udts) ∧ o.name = p.1 ∧
      p.2 = o.definition := by
  rw [syncRun_mergedByName] at h
  obtain ⟨nm, hnm, hmap⟩ := List.mem_filterMap.mp h
  cases hc : chosenOccurrence f0 rest nm with
  | none =>
    rw [hc] at hmap
    simp at hmap
  | some o =>
    rw [hc] at hmap
    have h2 : some (nm, o.definition) = some p := hmap
    cases h2
    obtain ⟨hm1, hm2⟩ := chosenOccurrence_mem hc
    exact ⟨o, hm1, hm2, rfl⟩

theorem keys_filterMap_eq {β : Type} (c : String → Option UdtOccurrence)
    (g : String → UdtOccurrence → β) :
    ∀ names : List String,
      ((names.filterMap (fun nm => (c nm).map (fun o => (nm, g nm o)))).map Prod.fst)
        = names.filter (fun nm => (c nm).isSome) := by
  intro names
  induction names with
  | nil => rfl
  | cons nm names ih =>
    rw [List.filterMap_cons, List.filter_cons]
    cases hc : c nm with
    | none => simp [hc, ih]
    | some o => simp [hc, ih]

theorem mergedByName_keys_nodup (f0 : ParsedUdtFile) (rest : List ParsedUdtFile) :
    ((syncRun f0 rest).mergedByName.map Prod.fst).Nodup := by
  rw [syncRun_mergedByName, keys_filterMap_eq]
  refine List.Nodup.filter _ ?_
  unfold uniqueNames
  exact nodup_dedupFirst _

theorem mergedByName_name_fields (f0 : ParsedUdtFile) (rest : List ParsedUdtFile)
    (hdef : ∀ f ∈ f0 :: rest, ∀ o ∈ f.udts,
      getStrField o.definition "tagType" = some "UdtType" ∧
      getStrField o.definition "name" = some o.name) :
    ∀ p ∈ (syncRun f0 rest).mergedByName,
      getStrField p.2 "tagType" = some "UdtType" ∧ getStrField p.2 "name" = some p.1 := by
  intro p hp
  obtain ⟨o, ⟨f, hf, hof⟩, hname, hdefn⟩ := mem_mergedByName hp
  obtain ⟨ht, hn⟩ := hdef f hf o hof
  rw [hdefn, hn, ht]
  exact ⟨rfl, by rw [hname]⟩

theorem countIn_buildMergedUdtFile (d : JsonValue) (mergedRootName : String)
    (mergedByName : List (String × JsonValue)) (parentPaths : List (String × List String))
    (name : String)
    (hd : getStrField d "tagType" = some "UdtType")
    (hlookup : lookupPairs mergedByName name = some d)
    (hkeys : (mergedByName.map Prod.fst).Nodup)
    (hfields : ∀ p ∈ mergedByName, getStrField p.2 "name" = some p.1)
    (hfree : ∀ p ∈ mergedByName, nestedUdtFree p.2 = true) :
    countIn d (buildMergedUdtFile mergedRootName mergedByName parentPaths) = 1 := by
  have hdn : getStrField d "name" = some name := hfields (name, d) (lookupPairs_mem hlookup)
  show countIn d (sortFolderTreeTop ((sortStrings (mergedByName.map Prod.fst)).foldl
      (fun acc udtName =>
        match lookupPairs mergedByName udtName with
        | none => acc
        | some dd => insertDefAt acc ((lookupPairs parentPaths udtName).getD []) dd)
      (JsonValue.obj [("name", JsonValue.str (if myTrim mergedRootName = ""
          then DEFAULT_MERGED_ROOT_NAME else myTrim mergedRootName)),
        ("tagType", JsonValue.str "Folder"), ("tags", JsonValue.arr [])]))) = 1
  generalize (if myTrim mergedRootName = "" then DEFAULT_MERGED_ROOT_NAME
    else myTrim mergedRootName) = rName
  have hrootfolder : getStrField (JsonValue.obj [("name", JsonValue.str rName),
      ("tagType", JsonValue.str "Folder"), ("tags", JsonValue.arr [])]) "tagType"
      = some "Folder" := rfl
  have hbuiltfolder : getStrField ((sortStrings (mergedByName.map Prod.fst)).foldl
      (fun acc udtName =>
        match lookupPairs mergedByName udtName with
        | none => acc
        | some dd => insertDefAt acc ((lookupPairs parentPaths udtName).getD []) dd)
      (JsonValue.obj [("name", JsonValue.str rName),
        ("tagType", JsonValue.str "Folder"), ("tags", JsonValue.arr [])])) "tagType"
      = some "Folder" := by
    rw [getStrField_insertFold mergedByName parentPaths "tagType" (by decide)]
    exact hrootfolder
  rw [countIn_sortFolderTreeTop d _ hd hbuiltfolder,
    countIn_insertFold d hd mergedByName parentPaths
      (sortStrings (mergedByName.map Prod.fst)) _ hrootfolder]
  have hroot0 : countIn d (JsonValue.obj [("name", JsonValue.str rName),
      ("tagType", JsonValue.str "Folder"), ("tags", JsonValue.arr [])]) = 0 := by
    rw [countIn_obj, if_neg (folder_ne_udt hrootfolder hd)]
    rfl
  rw [hroot0]
  have hkeymem : name ∈ mergedByName.map Prod.fst := by
    have hs : (lookupPairs mergedByName name).isSome = true := by rw [hlookup]; rfl
    exact lookupPairs_isSome_iff.mp hs
  have hsum : ((sortStrings (mergedByName.map Prod.fst)).map (fun udtName =>
      match lookupPairs mergedByName udtName with
      | none => 0
      | some dd => countIn d dd)).sum = 1 := by
    refine sum_map_single name _ (sortStrings (mergedByName.map Prod.fst)) ?_ ?_ ?_ ?_
    · exact (List.perm_insertionSort SLe _).nodup_iff.mpr hkeys
    · exact (List.perm_insertionSort SLe _).mem_iff.mpr hkeymem
    · show (match lookupPairs mergedByName name with
        | none => 0
        | some dd => countIn d dd) = 1
      rw [hlookup]
      exact countIn_self d
    · intro nm hnm hne
      show (match lookupPairs mergedByName nm with
        | none => 0
        | some dd => countIn d dd) = 0
      cases hl : lookupPairs mergedByName nm with
      | none => simp [hl]
      | some dd =>
        simp only [hl]
        have hpmem : (nm, dd) ∈ mergedByName := lookupPairs_mem hl
        have hddname : getStrField dd "name" = some nm := hfields (nm, dd) hpmem
        have hddfree : nestedUdtFree dd = true := hfree (nm, dd) hpmem
        have hddne : dd ≠ d := by
          intro he
          apply hne
          have h2 : some nm = some name := by rw [← hddname, he, hdn]
          exact Option.some.inj h2
        exact countIn_eq_zero_of_free d hd (jweight dd) dd (Nat.le_refl _) hddfree hddne
  rw [hsum]

theorem syncRun_mergedUdts (f0 : ParsedUdtFile) (rest : List ParsedUdtFile) :
    (syncRun f0 rest).mergedUdts
      = (List.insertionSort pairNameLe (syncRun f0 rest).mergedByName).map Prod.snd := rfl

theorem syncRun_mergedFile (f0 : ParsedUdtFile) (rest : List ParsedUdtFile) :
    (syncRun f0 rest).mergedFile = buildMergedUdtFile (chooseMergedRootName f0)
      (syncRun f0 rest).mergedByName (syncRun f0 rest).udtParentPathsByName := rfl

theorem countP_mergedUdts_single (mergedByName : List (String × JsonValue)) (name : String)
    (hkeys : (mergedByName.map Prod.fst).Nodup)
    (hmem : name ∈ mergedByName.map Prod.fst)
    (hfields : ∀ p ∈ mergedByName, getStrField p.2 "name" = some p.1) :
    ((List.insertionSort pairNameLe mergedByName).map Prod.snd).countP
      (fun dd => decide (getStrField dd "name" = some name)) = 1 := by
  have e1 : ((List.insertionSort pairNameLe mergedByName).map Prod.snd).countP
      (fun dd => decide (getStrField dd "name" = some name))
      = (List.insertionSort pairNameLe mergedByName).countP
        (fun p => decide (getStrField p.2 "name" = some name)) := by
    rw [List.countP_map]
    rfl
  have hcongr : ∀ p ∈ mergedByName,
      decide (getStrField p.2 "name" = some name) = decide (p.1 = name) := by
    intro p hp
    rw [hfields p hp]
    by_cases h : p.1 = name
    · rw [decide_eq_true (congrArg some h), decide_eq_true h]
    · rw [decide_eq_false (fun hc => h (Option.some.inj hc)), decide_eq_false h]
  rw [e1, (List.perm_insertionSort pairNameLe mergedByName).countP_eq,
    countP_congr_mem hcongr, countP_fst_single name mergedByName hkeys hmem]

/-- Claim C1 (amended): for every definition name present in at least one
input file, the synchronization run's merged map holds an entry for the
name, `mergedUdts` contains exactly one definition carrying that name, and —
provided no merged definition nests another `UdtType`-tagged node inside its
own `tags` subtree — the merged tree contains exactly one node equal to the
name's merged definition.  The nesting proviso is necessary: when one
definition is nested inside another, the merged tree holds an extra embedded
copy (see the counterexample). -/
theorem claim_C1 (f0 : ParsedUdtFile) (rest : List ParsedUdtFile) (name : String)
    (hpres : occurrencesOfName (f0 :: rest) name ≠ [])
    (hdef : ∀ f ∈ f0 :: rest, ∀ o ∈ f.udts,
      getStrField o.definition "tagType" = some "UdtType" ∧
      getStrField o.definition "name" = some o.name)
    (hfree : ∀ p ∈ (syncRun f0 rest).mergedByName, nestedUdtFree p.2 = true) :
    ∃ d : JsonValue,
      lookupPairs (syncRun f0 rest).mergedByName name = some d ∧
      ((syncRun f0 rest).mergedUdts.countP
        (fun dd => decide (getStrField dd "name" = some name)) = 1) ∧
      countIn d (syncRun f0 rest).mergedFile = 1 := by
  have hfields := mergedByName_name_fields f0 rest hdef
  have hkeys := mergedByName_keys_nodup f0 rest
  have hkeymem : name ∈ (syncRun f0 rest).mergedByName.map Prod.fst := by
    rw [syncRun_mergedByName, keys_filterMap_eq]
    exact List.mem_filter.mpr ⟨mem_uniqueNames.mpr hpres, chosenOccurrence_isSome hpres⟩
  obtain ⟨d, hlookup⟩ := Option.isSome_iff_exists.mp (lookupPairs_isSome_iff.mpr hkeymem)
  refine ⟨d, hlookup, ?_, ?_⟩
  · rw [syncRun_mergedUdts]
    exact countP_mergedUdts_single _ name hkeys hkeymem (fun p hp => (hfields p hp).2)
  · rw [syncRun_mergedFile]
    exact countIn_buildMergedUdtFile d (chooseMergedRootName f0) _ _ name
      (hfields (name, d) (lookupPairs_mem hlookup)).1 hlookup hkeys
      (fun p hp => (hfields p hp).2) hfree

/-- A parsed document in which the definition `B` nests the definition `A`
inside its own `tags` array. -/
def parsedC1 : JsonValue :=
  JsonValue.obj [("name", JsonValue.str "B"), ("tagType", JsonValue.str "UdtType"),
    ("tags", JsonValue.arr [leafUdt "A"])]

/-- Counterexample to claim C1 as stated: with `A` nested inside `B`, the
merged definition of `A` (which is exactly `leafUdt "A"`) occurs twice in
the merged tree — once as the inserted merged definition of `A` and once
embedded inside the merged definition of `B` — even though `A` has exactly
one `mergedUdts` entry. -/
theorem claim_C1_counterexample :
    lookupPairs (syncRun (extractUdtFile "f" parsedC1) []).mergedByName "A"
      = some (leafUdt "A") ∧
    ((syncRun (extractUdtFile "f" parsedC1) []).mergedUdts.countP
      (fun dd => decide (getStrField dd "name" = some "A")) = 1) ∧
    countIn (leafUdt "A") (syncRun (extractUdtFile "f" parsedC1) []).mergedFile = 2 := by
  refine ⟨?_, ?_, ?_⟩ <;> decide

/-- Concrete input for the C1 witness: one file containing the single
definition `A`. -/
def fC1 : ParsedUdtFile := extractUdtFile "a" (leafUdt "A")

/-- Witness for claim C1 at a concrete nesting-free input. -/
theorem claim_C1_witness :
    ∃ d : JsonValue,
      lookupPairs (syncRun fC1 []).mergedByName "A" = some d ∧
      ((syncRun fC1 []).mergedUdts.countP
        (fun dd => decide (getStrField dd "name" = some "A")) = 1) ∧
      countIn d (syncRun fC1 []).mergedFile = 1 :=
  claim_C1 fC1 [] "A" (by decide) (by decide) (by decide)

/-! ### The structural sub-differ and the union merge (claims C7 and C2)

Embeds `findArrayMatchKey`, `compareAtPath` (inside
`analyzeVariantDifferences`), `inspectDifference`, `mergeJsonValuesByUnion`,
`buildUnionMergedDefinition` and `mergedFileForDownload` from the component
module.  `MISSING_JSON_VALUE` is modelled as `none`, so the comparable
values are `Option JsonValue`.  The two recursions that are not structural
(`compareAtPath`, `mergeJsonValuesByUnion`) take a fuel argument; the
wrappers pass `1 + jweightList values`, which strictly exceeds the recursion
depth because every recursive call receives children that are strict
subterms of some present value. -/

/-- `comparableToCanonical`: the sentinel serializes as `"__missing__"`,
values by `JSON.stringify`. -/
def comparableToCanonical : Option JsonValue → String
  | none => "__missing__"
  | some v => jsonStringify v

/-- `isJsonObject` on an embedded value. -/
def isObjB : JsonValue → Bool
  | .obj _ => true
  | _ => false

/-- `Array.isArray` on an embedded value. -/
def isArrB : JsonValue → Bool
  | .arr _ => true
  | _ => false

/-- The element list of an array value (only applied to arrays). -/
def toArrD : JsonValue → List JsonValue
  | .arr l => l
  | _ => []

/-- `Object.keys` of a value when it is an object, else empty. -/
def objKeys : JsonValue → List String
  | .obj es => es.map Prod.fst
  | _ => []

/-- `item[k]` of a value when it is an object (property access). -/
def itemKeyVal (item : JsonValue) (k : String) : Option JsonValue :=
  match item with
  | JsonValue.obj es => lookupPairs es k
  | _ => none

/-- The ordered match-key preference list `ARRAY_MATCH_KEYS`. -/
def ARRAY_MATCH_KEYS : List String := ["name", "eventid", "eventId", "id", "key"]

/-- The inner validity loop of `findArrayMatchKey` over one array, carrying
the `seenValues` set: every item must be an object whose `k` property is a
string not seen before in this array. -/
def arrayKeyValid (k : String) : List String → List JsonValue → Bool
  | _, [] => true
  | seen, item :: rest =>
    match getStrField item k with
    | none => false
    | some s => if s ∈ seen then false else arrayKeyValid k (s :: seen) rest

/-- Validity of a candidate key for every compared array. -/
def arraysKeyValid (k : String) (arrays : List (List JsonValue)) : Bool :=
  arrays.all (fun a => arrayKeyValid k [] a)

/-- `findArrayMatchKey`: the first candidate valid for every array. -/
def findArrayMatchKey (arrays : List (List JsonValue)) : Option String :=
  ARRAY_MATCH_KEYS.find? (fun k => arraysKeyValid k arrays)

/-- `getArrayItemByKey`: the first object item whose `keyField` property is
the string `keyValue` (`none` is the `MISSING_JSON_VALUE` sentinel). -/
def getArrayItemByKey (arrayValue : List JsonValue) (keyField keyValue : String) :
    Option JsonValue :=
  arrayValue.find? (fun item => decide (getStrField item keyField = some keyValue))

/-- Decimal rendering of an index, for the positional path segment
`[index]` (fuel-recursive so that it reduces in the kernel; `n + 1` digits
always suffice). -/
def natToStringAux : Nat → Nat → List Char → List Char
  | 0, _, acc => acc
  | fuel + 1, n, acc =>
    if n < 10 then hexDigitChar n :: acc
    else natToStringAux fuel (n / 10) (hexDigitChar (n % 10) :: acc)

/-- Decimal rendering of a natural number. -/
def natToString (n : Nat) : String := ⟨natToStringAux (n + 1) n []⟩

/-- `segment.startsWith("[")`. -/
def startsWithBracket (s : String) : Bool :=
  match s.data with
  | c :: _ => c = '['
  | [] => false

/-- `formatPathSegments`: dotted label, bracket segments appended without a
dot, `"(root)"` for the empty path. -/
def formatPathSegments (segments : List String) : String :=
  if segments = [] then "(root)"
  else segments.foldl (fun label seg =>
    if startsWithBracket seg then label ++ seg
    else if 0 < label.length then label ++ "." ++ seg else label ++ seg) ""

/-- The present variant indexes of the `forEach` scan, from a running
index. -/
def presentIdxsFrom : Nat → List (Option JsonValue) → List Nat
  | _, [] => []
  | i, v :: vs =>
    if v.isSome then i :: presentIdxsFrom (i + 1) vs else presentIdxsFrom (i + 1) vs

/-- The missing variant indexes of the `forEach` scan, from a running
index. -/
def missingIdxsFrom : Nat → List (Option JsonValue) → List Nat
  | _, [] => []
  | i, v :: vs =>
    if v.isNone then i :: missingIdxsFrom (i + 1) vs else missingIdxsFrom (i + 1) vs

/-- Concatenate the per-child (missing, unequal) event lists. -/
def combineResults (rs : List (List (Nat × String × List Nat) × List (Nat × String × List Nat))) :
    List (Nat × String × List Nat) × List (Nat × String × List Nat) :=
  (rs.flatMap Prod.fst, rs.flatMap Prod.snd)

/-- Fuel-indexed `compareAtPath` of `analyzeVariantDifferences`, returning
the `addVariantRelation` events (variant index, path label, other indexes)
for the missing maps and the unequal maps instead of mutating them.  The
`if pathLabel = ""` tests mirror the empty-path guard of
`addVariantRelation`. -/
def compareAtPathF : Nat → List String → List (Option JsonValue) →
    List (Nat × String × List Nat) × List (Nat × String × List Nat)
  | 0, _, _ => ([], [])
  | fuel + 1, pathSegments, pathValues =>
    let presentIdxs := presentIdxsFrom 0 pathValues
    let missingIdxs := missingIdxsFrom 0 pathValues
    let pathLabel := formatPathSegments pathSegments
    if pathSegments ≠ [] ∧ missingIdxs ≠ [] ∧ presentIdxs ≠ [] then
      ((if pathLabel = "" then []
        else missingIdxs.map (fun i => (i, pathLabel, presentIdxs))), [])
    else
      let presentValues := pathValues.filterMap id
      if presentValues = [] then ([], [])
      else if presentValues.all isObjB then
        combineResults ((sortStrings (dedupFirst (presentValues.flatMap objKeys))).map
          (fun key =>
            compareAtPathF fuel
              (if key = "tags" then pathSegments else pathSegments ++ [key])
              (pathValues.map (fun v => match v with
                | some (JsonValue.obj es) => lookupPairs es key
                | _ => none))))
      else if presentValues.all isArrB then
        let presentArrays := presentValues.map toArrD
        match findArrayMatchKey presentArrays with
        | some k =>
          combineResults ((sortStrings (dedupFirst (presentArrays.flatMap (fun a =>
              a.filterMap (fun item => getStrField item k))))).map (fun kv =>
            compareAtPathF fuel
              (pathSegments ++ [if k = "name" then kv else k ++ "=" ++ kv])
              (pathValues.map (fun v => match v with
                | some (JsonValue.arr a) => getArrayItemByKey a k kv
                | _ => none))))
        | none =>
          combineResults ((List.range
              ((presentArrays.map List.length).foldr max 0)).map (fun i =>
            compareAtPathF fuel (pathSegments ++ ["[" ++ natToString i ++ "]"])
              (pathValues.map (fun v => match v with
                | some (JsonValue.arr a) => a.get? i
                | _ => none))))
      else if pathSegments = [] then ([], [])
      else
        let canonicalByVariant := pathValues.map comparableToCanonical
        ([], presentIdxs.filterMap (fun i =>
          let diffs := presentIdxs.filter (fun j =>
            decide (j ≠ i) &&
              decide (canonicalByVariant.getD j "" ≠ canonicalByVariant.getD i ""))
          if diffs = [] then none
          else if pathLabel = "" then none else some (i, pathLabel, diffs)))

/-- One rendered path record of a variant difference detail. -/
structure VariantPathDetail where
  path : String
  otherVariantIndexes : List Nat
deriving DecidableEq

/-- The per-variant outcome of `analyzeVariantDifferences`. -/
structure VariantDifferenceDetail where
  missingProperties : List VariantPathDetail
  unequalValues : List VariantPathDetail
deriving DecidableEq

/-- Comparator on path details (`localeCompare` of the path strings). -/
def pathDetailLe (a b : VariantPathDetail) : Prop := strLe a.path b.path = true

instance : DecidableRel pathDetailLe := fun a b => instDecidableEqBool _ true

/-- `mapToVariantPathDetails` over one variant's events: group the events by
path in first-appearance order (the map insertion order), collect the other
variant indexes in first-appearance order (the set insertion order) sorted
numerically, and sort the records by path. -/
def variantPathDetails (events : List (String × List Nat)) : List VariantPathDetail :=
  List.insertionSort pathDetailLe ((dedupFirst (events.map Prod.fst)).map (fun p =>
    { path := p
      otherVariantIndexes := List.insertionSort (fun a b => a ≤ b)
        (dedupFirst ((events.filter (fun e => decide (e.1 = p))).flatMap Prod.snd)) }))

/-- Comparator of the root-name selection: highest count first, then
lexical name. -/
def rootCountLe (a b : String × Nat) : Prop :=
  (if a.2 ≠ b.2 then decide (b.2 < a.2) else strLe a.1 b.1) = true

instance : DecidableRel rootCountLe := fun a b => instDecidableEqBool _ true

/-- The root path label of `analyzeVariantDifferences`: the most frequent
root `name` string (ties lexical), or the empty path when no value carries
one. -/
def rootPathSegmentsOf (values : List JsonValue) : List String :=
  let rootNames := values.filterMap (fun v => getStrField v "name")
  if rootNames = [] then []
  else
    match List.insertionSort rootCountLe ((dedupFirst rootNames).map (fun nm =>
        (nm, (rootNames.filter (fun x => decide (x = nm))).length))) with
    | [] => []
    | e :: _ => [e.1]

/-- `analyzeVariantDifferences`: run the sub-differ from the root label over
the variant values and render one detail record per variant. -/
def analyzeVariantDifferences (values : List JsonValue) : List VariantDifferenceDetail :=
  let ev := compareAtPathF (1 + jweightList values) (rootPathSegmentsOf values)
    (values.map some)
  (List.range values.length).map (fun i =>
    { missingProperties :=
        variantPathDetails ((ev.1.filter (fun e => decide (e.1 = i))).map (fun e => e.2))
      unequalValues :=
        variantPathDetails ((ev.2.filter (fun e => decide (e.1 = i))).map (fun e => e.2)) })

/-- The fields of `inspectDifference` used by the union-merge gate (the
display-only `mismatchPaths` set is omitted). -/
structure DifferenceInspection where
  normalizedVariantDefinitions : List JsonValue
  variantDifferenceDetails : List VariantDifferenceDetail
  missingPropertyCount : Nat
  unequalValueCount : Nat
  isMissingOnlyDefinitionDifference : Bool
deriving DecidableEq

/-- `inspectDifference`: normalize the first example of each variant,
recompute the sub-differ details when there are at least two variants, and
derive the counts and the missing-only eligibility flag. -/
def inspectDifference (difference : UdtDifference) : DifferenceInspection :=
  let normalized := difference.variants.map (fun variant =>
    normalizeJsonForDisplay
      (((variant.examples.head?).map (fun e => e.definition)).getD (JsonValue.obj [])))
  let details := if 1 < difference.variants.length then analyzeVariantDifferences normalized
    else difference.variants.map (fun _ => { missingProperties := [], unequalValues := [] })
  let missingCount := (details.map (fun d => d.missingProperties.length)).sum
  let unequalCount := (details.map (fun d => d.unequalValues.length)).sum
  { normalizedVariantDefinitions := normalized
    variantDifferenceDetails := details
    missingPropertyCount := missingCount
    unequalValueCount := unequalCount
    isMissingOnlyDefinitionDifference :=
      decide (1 < difference.variants.length) && decide (0 < missingCount) &&
        decide (unequalCount = 0) }

/-- The `uniqueItems` map of the keyless array union: canonical
serialization to first item carrying it, in insertion order. -/
def uniqueByCanonAux : List String → List JsonValue → List (String × JsonValue)
  | _, [] => []
  | seen, item :: rest =>
    let c := jsonStringify item
    if c ∈ seen then uniqueByCanonAux seen rest
    else (c, item) :: uniqueByCanonAux (c :: seen) rest

/-- Fuel-indexed `mergeJsonValuesByUnion`: objects merge over the sorted
union of keys, arrays merge by match key over sorted distinct key values
(else deduplicate by serialization, sorted), scalars keep the first
value. -/
def mergeJsonValuesByUnionF : Nat → List JsonValue → JsonValue
  | 0, _ => JsonValue.null
  | fuel + 1, values =>
    if values = [] then JsonValue.null
    else if values.all isObjB then
      JsonValue.obj ((sortStrings (dedupFirst (values.flatMap objKeys))).map (fun key =>
        (key, mergeJsonValuesByUnionF fuel
          (values.filterMap (fun v => itemKeyVal v key)))))
    else if values.all isArrB then
      let arrayValues := values.map toArrD
      match findArrayMatchKey arrayValues with
      | some k =>
        JsonValue.arr ((sortStrings (dedupFirst (arrayValues.flatMap (fun a =>
            a.filterMap (fun item => getStrField item k))))).map (fun kv =>
          mergeJsonValuesByUnionF fuel
            (arrayValues.filterMap (fun a => getArrayItemByKey a k kv))))
      | none =>
        JsonValue.arr ((List.insertionSort pairNameLe
          (uniqueByCanonAux [] (arrayValues.flatMap id))).map Prod.snd)
    else (values.head?).getD JsonValue.null

/-- `mergeJsonValuesByUnion` with sufficient fuel (children are strict
subterms of present values, so the depth never exceeds the weight sum). -/
def mergeJsonValuesByUnion (values : List JsonValue) : JsonValue :=
  mergeJsonValuesByUnionF (1 + jweightList values) values

/-- `buildUnionMergedDefinition`: union-merge every example definition of
every variant; `none` when there are no examples or the merge result is not
an object. -/
def buildUnionMergedDefinition (difference : UdtDifference) : Option JsonValue :=
  let definitions := difference.variants.flatMap (fun v =>
    v.examples.map (fun e => e.definition))
  if definitions = [] then none
  else
    match mergeJsonValuesByUnion definitions with
    | JsonValue.obj es => some (JsonValue.obj es)
    | _ => none

/-- `Map.set` on an insertion-ordered association list: overwrite the first
binding in place or append a new one. -/
def upsertPairs : List (String × JsonValue) → String → JsonValue → List (String × JsonValue)
  | [], key, v => [(key, v)]
  | (k, w) :: rest, key, v =>
    if k = key then (k, v) :: rest else (k, w) :: upsertPairs rest key v

/-- One `mergedUdts` entry of the base map rebuild: definitions with a
non-empty string `name` are set (overwriting earlier bindings). -/
def baseStep (acc : List (String × JsonValue)) (d : JsonValue) :
    List (String × JsonValue) :=
  match getStrField d "name" with
  | some nm => if nm = "" then acc else upsertPairs acc nm d
  | none => acc

/-- One difference of the union-merge application loop: a selected,
recomputed-missing-only difference whose union definition is an object with
a string `name` is upserted; everything else is skipped. -/
def unionStep (selections : String → Bool) (acc : List (String × JsonValue))
    (diff : UdtDifference) : List (String × JsonValue) :=
  if selections diff.name then
    if (inspectDifference diff).isMissingOnlyDefinitionDifference then
      match buildUnionMergedDefinition diff with
      | some u =>
        match getStrField u "name" with
        | some nm => upsertPairs acc nm u
        | none => acc
      | none => acc
    else acc
  else acc

/-- `mergedFileForDownload`: rebuild the name-to-definition map from
`mergedUdts` (non-empty string names only), apply the union merge of every
selected difference that the recomputed inspection marks missing-only and
whose union definition is an object with a string `name`, then rebuild the
merged tree. -/
def mergedFileForDownload (r : UdtSyncResult) (selections : String → Bool) : JsonValue :=
  buildMergedUdtFile r.mergedRootName
    (r.differences.foldl (unionStep selections) (r.mergedUdts.foldl baseStep []))
    r.udtParentPathsByName

theorem unionStep_eq_of_agree {s₁ s₂ : String → Bool} {diff : UdtDifference}
    (h : (inspectDifference diff).isMissingOnlyDefinitionDifference = true →
      s₁ diff.name = s₂ diff.name) (acc : List (String × JsonValue)) :
    unionStep s₁ acc diff = unionStep s₂ acc diff := by
  unfold unionStep
  cases hflag : (inspectDifference diff).isMissingOnlyDefinitionDifference with
  | true => rw [h hflag]
  | false => simp [hflag]

theorem foldl_unionStep_congr (s₁ s₂ : String → Bool) :
    ∀ (l : List UdtDifference) (acc : List (String × JsonValue)),
      (∀ diff ∈ l, (inspectDifference diff).isMissingOnlyDefinitionDifference = true →
        s₁ diff.name = s₂ diff.name) →
      l.foldl (unionStep s₁) acc = l.foldl (unionStep s₂) acc := by
  intro l
  induction l with
  | nil => intro acc _; rfl
  | cons diff l ih =>
    intro acc h
    rw [List.foldl_cons, List.foldl_cons,
      unionStep_eq_of_agree (h diff (List.mem_cons_self _ _)) acc]
    exact ih _ (fun d hd hf => h d (List.mem_cons_of_mem _ hd) hf)

/-- Claim C2 (amended): the merged download depends on the caller's
union-merge selections only at differences that the recomputed inspection
marks union-merge-eligible (missing-only), so a selection alone is never
trusted; and a difference is eligible exactly when it has at least two
variants, a positive recomputed missing-path count, and a zero recomputed
unequal-path count.  The original claim's further assertion — that an
applied union merge only adds paths flagged missing — is refuted by the
counterexample: arrays without a match key are deduplicated by
serialization, changing values at paths flagged neither missing nor
unequal. -/
theorem claim_C2 (r : UdtSyncResult) (s₁ s₂ : String → Bool)
    (hagree : ∀ diff ∈ r.differences,
      (inspectDifference diff).isMissingOnlyDefinitionDifference = true →
      s₁ diff.name = s₂ diff.name) :
    mergedFileForDownload r s₁ = mergedFileForDownload r s₂ ∧
    ∀ diff : UdtDifference,
      (inspectDifference diff).isMissingOnlyDefinitionDifference = true ↔
        (1 < diff.variants.length ∧
         0 < (inspectDifference diff).missingPropertyCount ∧
         (inspectDifference diff).unequalValueCount = 0) := by
  constructor
  · unfold mergedFileForDownload
    rw [foldl_unionStep_congr s₁ s₂ r.differences _ hagree]
  · intro diff
    have hflag : (inspectDifference diff).isMissingOnlyDefinitionDifference
        = (decide (1 < diff.variants.length) &&
           decide (0 < (inspectDifference diff).missingPropertyCount) &&
           decide ((inspectDifference diff).unequalValueCount = 0)) := rfl
    rw [hflag, Bool.and_eq_true, Bool.and_eq_true,
      decide_eq_true_eq, decide_eq_true_eq, decide_eq_true_eq]
    constructor
    · rintro ⟨⟨h1, h2⟩, h3⟩
      exact ⟨h1, h2, h3⟩
    · rintro ⟨h1, h2, h3⟩
      exact ⟨⟨h1, h2⟩, h3⟩

/-- First input of the C2 counterexample: definition `M` with an array
property `a = [1, 1]` and a scalar property `b`. -/
def faC2 : ParsedUdtFile := extractUdtFile "a" (JsonValue.obj
  [("name", JsonValue.str "M"), ("tagType", JsonValue.str "UdtType"),
   ("a", JsonValue.arr [JsonValue.num 1, JsonValue.num 1]), ("b", JsonValue.num 1)])

/-- Second input of the C2 counterexample: the same `M` without `b`. -/
def fbC2 : ParsedUdtFile := extractUdtFile "b" (JsonValue.obj
  [("name", JsonValue.str "M"), ("tagType", JsonValue.str "UdtType"),
   ("a", JsonValue.arr [JsonValue.num 1, JsonValue.num 1])])

/-- Counterexample to claim C2 as stated: the only difference (`M`) is
union-merge-eligible and its sub-differ output flags exactly the missing
path `M.b` and nothing unequal; yet the applied union merge also changes the
value of the property `a` — a path flagged neither missing nor unequal —
from `[1, 1]` (the reference value) to the deduplicated `[1]`, and the
downloaded merged file changes accordingly.  So the union merge does not
only add paths previously flagged missing. -/
theorem claim_C2_counterexample :
    (syncRun faC2 [fbC2]).differences.map (fun d => d.name) = ["M"] ∧
    (∀ diff ∈ (syncRun faC2 [fbC2]).differences,
      (inspectDifference diff).isMissingOnlyDefinitionDifference = true ∧
      (inspectDifference diff).variantDifferenceDetails.map
        (fun det => (det.missingProperties.map (fun p => p.path),
                     det.unequalValues.map (fun p => p.path)))
        = [([], []), (["M.b"], [])] ∧
      (buildUnionMergedDefinition diff).map (fun u => itemKeyVal u "a")
        = some (some (JsonValue.arr [JsonValue.num 1]))) ∧
    (lookupPairs (syncRun faC2 [fbC2]).mergedByName "M").map (fun d => itemKeyVal d "a")
      = some (some (JsonValue.arr [JsonValue.num 1, JsonValue.num 1])) ∧
    mergedFileForDownload (syncRun faC2 [fbC2]) (fun nm => decide (nm = "M"))
      ≠ mergedFileForDownload (syncRun faC2 [fbC2]) (fun _ => false) := by
  refine ⟨?_, ?_, ?_, ?_⟩ <;> decide

/-- Witness for claim C2: selecting only a name with no eligible difference
leaves the downloaded merged file unchanged. -/
theorem claim_C2_witness :
    mergedFileForDownload (syncRun faC2 [fbC2]) (fun nm => decide (nm = "Z"))
      = mergedFileForDownload (syncRun faC2 [fbC2]) (fun _ => false) :=
  (claim_C2 (syncRun faC2 [fbC2]) (fun nm => decide (nm = "Z")) (fun _ => false)
    (by decide)).1

theorem arrayKeyValid_iff (k : String) :
    ∀ (a : List JsonValue) (seen : List String),
      arrayKeyValid k seen a = true ↔
        ((∀ item ∈ a, ∃ s, getStrField item k = some s) ∧
         (a.map (fun item => getStrField item k)).Nodup ∧
         ∀ item ∈ a, ∀ s, getStrField item k = some s → s ∉ seen) := by
  intro a
  induction a with
  | nil =>
    intro seen
    simp [arrayKeyValid]
  | cons item rest ih =>
    intro seen
    rw [arrayKeyValid]
    cases hg : getStrField item k with
    | none =>
      constructor
      · intro h
        cases h
      · rintro ⟨h1, _, _⟩
        obtain ⟨s, hs⟩ := h1 item (List.mem_cons_self _ _)
        rw [hg] at hs
        cases hs
    | some s =>
      show (if s ∈ seen then false else arrayKeyValid k (s :: seen) rest) = true ↔ _
      by_cases hseen : s ∈ seen
      · rw [if_pos hseen]
        constructor
        · intro h
          cases h
        · rintro ⟨_, _, h3⟩
          exact absurd hseen (h3 item (List.mem_cons_self _ _) s hg)
      · rw [if_neg hseen, ih (s :: seen)]
        constructor
        · rintro ⟨h1, h2, h3⟩
          refine ⟨?_, ?_, ?_⟩
          · intro it hit
            rcases List.mem_cons.mp hit with rfl | hit2
            · exact ⟨s, hg⟩
            · exact h1 it hit2
          · rw [List.map_cons, List.nodup_cons]
            refine ⟨?_, h2⟩
            rw [hg]
            intro hmem
            obtain ⟨it, hit, hval⟩ := List.mem_map.mp hmem
            exact (h3 it hit s hval) (List.mem_cons_self _ _)
          · intro it hit s2 hs2
            rcases List.mem_cons.mp hit with rfl | hit2
            · rw [hg] at hs2
              cases hs2
              exact hseen
            · have h4 := h3 it hit2 s2 hs2
              intro hmem
              exact h4 (List.mem_cons_of_mem _ hmem)
        · rintro ⟨h1, h2, h3⟩
          rw [List.map_cons, List.nodup_cons] at h2
          refine ⟨fun it hit => h1 it (List.mem_cons_of_mem _ hit), h2.2, ?_⟩
          intro it hit s2 hs2
          intro hmem
          rcases List.mem_cons.mp hmem with rfl | hmem2
          · exact h2.1 (by
              rw [hg]
              exact List.mem_map.mpr ⟨it, hit, hs2⟩)
          · exact (h3 it (List.mem_cons_of_mem _ hit) s2 hs2) hmem2

theorem arraysKeyValid_iff (k : String) (arrays : List (List JsonValue)) :
    arraysKeyValid k arrays = true ↔
      ∀ a ∈ arrays, (∀ item ∈ a, ∃ s, getStrField item k = some s) ∧
        (a.map (fun item => getStrField item k)).Nodup := by
  unfold arraysKeyValid
  rw [List.all_eq_true]
  constructor
  · intro h a ha
    obtain ⟨h1, h2, _⟩ := (arrayKeyValid_iff k a []).mp (h a ha)
    exact ⟨h1, h2⟩
  · intro h a ha
    refine (arrayKeyValid_iff k a []).mpr ⟨(h a ha).1, (h a ha).2, ?_⟩
    intro it hit s hs
    exact List.not_mem_nil s

theorem missingIdxsFrom_all_some :
    ∀ (pvals : List (Option JsonValue)), (∀ v ∈ pvals, v.isSome = true) →
      ∀ n, missingIdxsFrom n pvals = [] := by
  intro pvals
  induction pvals with
  | nil => intro _ n; rfl
  | cons v vs ih =>
    intro h n
    obtain ⟨x, rfl⟩ := Option.isSome_iff_exists.mp (h v (List.mem_cons_self _ _))
    simp [missingIdxsFrom, ih (fun w hw => h w (List.mem_cons_of_mem _ hw))]

theorem filterMap_id_map_some {α : Type} (f : α → JsonValue) (l : List α) :
    ((l.map (fun a => some (f a))).filterMap id) = l.map f := by
  induction l with
  | nil => rfl
  | cons a l ih => simp [ih]

theorem compareAtPathF_array_key (arrays : List (List JsonValue)) (k : String)
    (hne : arrays ≠ []) (hk : findArrayMatchKey arrays = some k)
    (fuel : Nat) (pathSegments : List String) :
    compareAtPathF (fuel + 1) pathSegments (arrays.map (fun a => some (JsonValue.arr a)))
      = combineResults ((sortStrings (dedupFirst (arrays.flatMap (fun a =>
          a.filterMap (fun item => getStrField item k))))).map (fun kv =>
        compareAtPathF fuel
          (pathSegments ++ [if k = "name" then kv else k ++ "=" ++ kv])
          (arrays.map (fun a => getArrayItemByKey a k kv)))) := by
  have hmiss : missingIdxsFrom 0 (arrays.map (fun a => some (JsonValue.arr a))) = [] :=
    missingIdxsFrom_all_some _ (fun v hv => by
      obtain ⟨a, _, rfl⟩ := List.mem_map.mp hv
      rfl) 0
  have hpv : (arrays.map (fun a => some (JsonValue.arr a))).filterMap id
      = arrays.map JsonValue.arr := filterMap_id_map_some _ _
  obtain ⟨a0, rest, rfl⟩ : ∃ a0 rest, arrays = a0 :: rest := by
    cases arrays with
    | nil => exact absurd rfl hne
    | cons a0 rest => exact ⟨a0, rest, rfl⟩
  simp only [compareAtPathF, hmiss, hpv]
  rw [if_neg (by simp)]
  rw [if_neg (by simp)]
  rw [if_neg (by rw [List.map_cons, List.all_cons]; simp [isObjB])]
  rw [if_pos (by
    rw [List.all_eq_true]
    intro x hx
    obtain ⟨a, _, rfl⟩ := List.mem_map.mp hx
    rfl)]
  have hta : List.map toArrD (List.map JsonValue.arr (a0 :: rest)) = a0 :: rest := by
    rw [List.map_map]
    have hfid : toArrD ∘ JsonValue.arr = id := rfl
    rw [hfid, List.map_id]
  rw [hta]
  simp only [hk]
  refine congrArg combineResults (List.map_congr_left ?_)
  intro kv _
  have hchild : (List.map (fun v => match v with
      | some (JsonValue.arr a) => getArrayItemByKey a k kv
      | _ => none) (List.map (fun a => some (JsonValue.arr a)) (a0 :: rest)))
      = List.map (fun a => getArrayItemByKey a k kv) (a0 :: rest) := by
    rw [List.map_map]
    rfl
  rw [hchild]

theorem compareAtPathF_array_positional (arrays : List (List JsonValue))
    (hne : arrays ≠ []) (hk : findArrayMatchKey arrays = none)
    (fuel : Nat) (pathSegments : List String) :
    compareAtPathF (fuel + 1) pathSegments (arrays.map (fun a => some (JsonValue.arr a)))
      = combineResults ((List.range ((arrays.map List.length).foldr max 0)).map (fun i =>
        compareAtPathF fuel (pathSegments ++ ["[" ++ natToString i ++ "]"])
          (arrays.map (fun a => a.get? i)))) := by
  have hmiss : missingIdxsFrom 0 (arrays.map (fun a => some (JsonValue.arr a))) = [] :=
    missingIdxsFrom_all_some _ (fun v hv => by
      obtain ⟨a, _, rfl⟩ := List.mem_map.mp hv
      rfl) 0
  have hpv : (arrays.map (fun a => some (JsonValue.arr a))).filterMap id
      = arrays.map JsonValue.arr := filterMap_id_map_some _ _
  obtain ⟨a0, rest, rfl⟩ : ∃ a0 rest, arrays = a0 :: rest := by
    cases arrays with
    | nil => exact absurd rfl hne
    | cons a0 rest => exact ⟨a0, rest, rfl⟩
  simp only [compareAtPathF, hmiss, hpv]
  rw [if_neg (by simp)]
  rw [if_neg (by simp)]
  rw [if_neg (by rw [List.map_cons, List.all_cons]; simp [isObjB])]
  rw [if_pos (by
    rw [List.all_eq_true]
    intro x hx
    obtain ⟨a, _, rfl⟩ := List.mem_map.mp hx
    rfl)]
  have hta : List.map toArrD (List.map JsonValue.arr (a0 :: rest)) = a0 :: rest := by
    rw [List.map_map]
    have hfid : toArrD ∘ JsonValue.arr = id := rfl
    rw [hfid, List.map_id]
  rw [hta]
  simp only [hk]
  refine congrArg combineResults (List.map_congr_left ?_)
  intro i _
  have hchild : (List.map (fun v => match v with
      | some (JsonValue.arr a) => a.get? i
      | _ => none) (List.map (fun a => some (JsonValue.arr a)) (a0 :: rest)))
      = List.map (fun a => a.get? i) (a0 :: rest) := by
    rw [List.map_map]
    rfl
  rw [hchild]

/-- The claim's own qualification wording for a match-key candidate: every
element of every sequence is a mapping containing the key, with a value
unique within its own sequence (no string requirement). -/
def specKeyQualifies (k : String) (arrays : List (List JsonValue)) : Prop :=
  ∀ a ∈ arrays,
    (∀ item ∈ a, isObjB item = true ∧ (itemKeyVal item k).isSome = true) ∧
    (a.map (fun item => itemKeyVal item k)).Nodup

/-- Claim C7 (amended): the sub-differ selects the first candidate of the
preference list `name`, `eventid`, `eventId`, `id`, `key` that is valid for
every compared sequence, where validity requires every element to be a
mapping whose value at the key is a **string** unique within its own
sequence; with such a key it recurses once per distinct key value (sorted),
matching elements across sequences by that value, extending the path with
the value itself for `name` and with `key=value` otherwise; with no
qualifying candidate it recurses positionally up to the longest sequence's
length, treating out-of-range indices as absent.  The original claim omits
the string requirement (see the counterexample). -/
theorem claim_C7 (arrays : List (List JsonValue)) (k : String) :
    (findArrayMatchKey arrays = some k ↔
      arraysKeyValid k arrays = true ∧
        ∃ l₁ l₂, ARRAY_MATCH_KEYS = l₁ ++ k :: l₂ ∧
          ∀ k2 ∈ l₁, arraysKeyValid k2 arrays = false) ∧
    (arraysKeyValid k arrays = true ↔
      ∀ a ∈ arrays, (∀ item ∈ a, ∃ s, getStrField item k = some s) ∧
        (a.map (fun item => getStrField item k)).Nodup) ∧
    (∀ (fuel : Nat) (pathSegments : List String), arrays ≠ [] →
      findArrayMatchKey arrays = some k →
      compareAtPathF (fuel + 1) pathSegments (arrays.map (fun a => some (JsonValue.arr a)))
        = combineResults ((sortStrings (dedupFirst (arrays.flatMap (fun a =>
            a.filterMap (fun item => getStrField item k))))).map (fun kv =>
          compareAtPathF fuel
            (pathSegments ++ [if k = "name" then kv else k ++ "=" ++ kv])
            (arrays.map (fun a => getArrayItemByKey a k kv))))) ∧
    (∀ (fuel : Nat) (pathSegments : List String), arrays ≠ [] →
      findArrayMatchKey arrays = none →
      compareAtPathF (fuel + 1) pathSegments (arrays.map (fun a => some (JsonValue.arr a)))
        = combineResults ((List.range ((arrays.map List.length).foldr max 0)).map (fun i =>
          compareAtPathF fuel (pathSegments ++ ["[" ++ natToString i ++ "]"])
            (arrays.map (fun a => a.get? i))))) := by
  refine ⟨?_, arraysKeyValid_iff k arrays, ?_, ?_⟩
  · unfold findArrayMatchKey
    rw [List.find?_eq_some]
    constructor
    · rintro ⟨hp, l₁, l₂, hl, hprev⟩
      refine ⟨hp, l₁, l₂, hl, fun k2 hk2 => ?_⟩
      have h2 := hprev k2 hk2
      rwa [Bool.not_eq_true'] at h2
    · rintro ⟨hp, l₁, l₂, hl, hprev⟩
      refine ⟨hp, l₁, l₂, hl, fun k2 hk2 => ?_⟩
      rw [Bool.not_eq_true']
      exact hprev k2 hk2
  · intro fuel ps hne hk2
    exact compareAtPathF_array_key arrays k hne hk2 fuel ps
  · intro fuel ps hne hk2
    exact compareAtPathF_array_positional arrays hne hk2 fuel ps

/-- Counterexample input to claim C7 as stated: one sequence of mappings
whose `name` values are numbers (1 and 2), unique within the sequence. -/
def arraysC7 : List (List JsonValue) :=
  [[JsonValue.obj [("name", JsonValue.num 1)], JsonValue.obj [("name", JsonValue.num 2)]]]

/-- Counterexample to claim C7 as stated: `name` is the first preference
candidate and every element is a mapping containing it with a value unique
within its sequence, yet `findArrayMatchKey` rejects it (the values are not
strings) and the sub-differ falls back to positional recursion. -/
theorem claim_C7_counterexample :
    ARRAY_MATCH_KEYS.head? = some "name" ∧
    specKeyQualifies "name" arraysC7 ∧
    findArrayMatchKey arraysC7 = none := by
  refine ⟨rfl, ?_, by decide⟩
  unfold specKeyQualifies
  decide

/-- Witness input for claim C7: two sequences of mappings with string
`name` values, unique within each sequence. -/
def arraysW7 : List (List JsonValue) :=
  [[JsonValue.obj [("name", JsonValue.str "x")], JsonValue.obj [("name", JsonValue.str "y")]],
   [JsonValue.obj [("name", JsonValue.str "y")]]]

/-- Witness for claim C7: `name` qualifies for the concrete sequences, is
selected, and the sub-differ recurses by key value. -/
theorem claim_C7_witness :
    findArrayMatchKey arraysW7 = some "name" ∧
    compareAtPathF 2 ["R"] (arraysW7.map (fun a => some (JsonValue.arr a)))
      = combineResults ((sortStrings (dedupFirst (arraysW7.flatMap (fun a =>
          a.filterMap (fun item => getStrField item "name"))))).map (fun kv =>
        compareAtPathF 1
          (["R"] ++ [if "name" = "name" then kv else "name" ++ "=" ++ kv])
          (arraysW7.map (fun a => getArrayItemByKey a "name" kv)))) := by
  have h := claim_C7 arraysW7 "name"
  have hfind : findArrayMatchKey arraysW7 = some "name" :=
    h.1.mpr ⟨by decide, [], ["eventid", "eventId", "id", "key"], rfl, by decide⟩
  exact ⟨hfind, h.2.2.1 1 ["R"] (by decide) hfind⟩
